import Mathlib

/-!
Verification development for the `chat_Roast_Ai` repository
(WhatsApp chat parser, frequency aggregator and roast template engine).

The Python sources (`whatsapp_parser.py`, `analysis_utils.py`,
`roast_engine.py`) are shallowly embedded below.  Dictionaries built through
`collections.Counter` are modelled as insertion-ordered association lists;
`datetime` values are modelled as a record of calendar fields; the
floating-point expression `part / whole * 100` of `_percentage` is modelled
with exact rational arithmetic, and Python's `round` (round half to even) is
modelled by `roundHalfEven`.  The header regular expression `_MESSAGE_RE` is
embedded as a deterministic matcher reproducing the backtracking behaviour
of the pattern; it uses the ASCII fragments of the source's Unicode-aware
character classes (`\s`, `\w`, `str.lower`), which coincide with the source
on all inputs considered here.
-/

/-- Calendar timestamp with minute precision, as produced by
`datetime.strptime` in `_parse_timestamp` (the source never uses seconds). -/
structure DateTime where
  year : Nat
  month : Nat
  day : Nat
  hour : Nat
  minute : Nat
deriving DecidableEq, Repr

/-- `Message` dataclass from `whatsapp_parser.py`. -/
structure Message where
  timestamp : DateTime
  sender : String
  text : String
deriving DecidableEq, Repr

/-- ASCII fragment of Python's `\s` class (the source lines contain no
non-ASCII whitespace). -/
def isPySpace (c : Char) : Bool :=
  c == ' ' || c == '\t' || c == '\n' || c == '\r' || c == '\x0b' || c == '\x0c'

/-- Python `str.strip()` on the sender group: drop whitespace on both ends. -/
def pyStrip (s : String) : String :=
  ⟨((s.data.dropWhile isPySpace).reverse.dropWhile isPySpace).reverse⟩

/-- Captured groups of `_MESSAGE_RE`, exactly as in the source:
`date`, `time`, optional `ampm`, the raw (unstripped) `sender`, `text`. -/
structure Header where
  date : String
  time : String
  ampm : Option String
  sender : String
  text : String
deriving DecidableEq, Repr

/-- Greedy `\d{lo,hi}` followed by the one-character delimiter `d`,
consuming both.  Since the delimiter is never a digit, the regex engine's
greedy-with-backtracking scan accepts exactly the maximal digit run when its
length lies in `[lo, hi]` and is followed by `d`. -/
def digitsThen (lo hi : Nat) (d : Char) (cs : List Char) :
    Option (List Char × List Char) :=
  let ds := cs.takeWhile (·.isDigit)
  let rest := cs.drop ds.length
  if lo ≤ ds.length ∧ ds.length ≤ hi then
    match rest with
    | c :: rest2 => if c = d then some (ds, rest2) else none
    | [] => none
  else none

/-- `\d{2}` with no delimiter (the minute field). -/
def twoDigits (cs : List Char) : Option (List Char × List Char) :=
  match cs with
  | a :: b :: rest => if a.isDigit && b.isDigit then some ([a, b], rest) else none
  | _ => none

/-- Split at the first `':'`: returns the characters before it (which hence
contain no colon) and the characters after it. -/
def beforeColon : List Char → Option (List Char × List Char)
  | [] => none
  | c :: cs =>
    if c = ':' then some ([], cs)
    else (beforeColon cs).map (fun p => (c :: p.1, p.2))

/-- The optional `(AM|PM)?` group. -/
def takeAmPm (cs : List Char) : Option String × List Char :=
  match cs with
  | 'A' :: 'M' :: rest => (some "AM", rest)
  | 'P' :: 'M' :: rest => (some "PM", rest)
  | _ => (none, cs)

/-- Embedding of `_MESSAGE_RE.match` from `whatsapp_parser.py`:

`^(?P<date>\d{1,2}/\d{1,2}/\d{2,4}),\s*(?P<time>\d{1,2}:\d{2})\s*(?P<ampm>AM|PM)?\s*\-\s*(?P<sender>[^:]+):\s*(?P<text>.*)$`

The numeric fields and their delimiters allow at most one viable split
(delimiters are non-digits), the `(AM|PM)?` alternative is forced (when the
following characters are `AM`/`PM` the marker-absent branch immediately
fails on `\-`), and `\s*\-` can only match the dash ending the maximal
whitespace run; so the backtracking search is equivalent to this
deterministic scan.  After the dash, `\s*(?P<sender>[^:]+):` takes the
maximal whitespace run unless the first colon follows it directly, in which
case one whitespace character is given back to make the sender non-empty. -/
def matchHeader (line : String) : Option Header := do
  let cs := line.data
  let (monthDs, cs) ← digitsThen 1 2 '/' cs
  let (dayDs, cs) ← digitsThen 1 2 '/' cs
  let (yearDs, cs) ← digitsThen 2 4 ',' cs
  let cs := cs.dropWhile isPySpace
  let (hourDs, cs) ← digitsThen 1 2 ':' cs
  let (minDs, cs) ← twoDigits cs
  let cs := cs.dropWhile isPySpace
  let (ampm, cs) := takeAmPm cs
  let cs := cs.dropWhile isPySpace
  match cs with
  | '-' :: cs =>
    let (before, after) ← beforeColon cs
    if before = [] then none
    else
      let w := (before.takeWhile isPySpace).length
      let k := if w = before.length then w - 1 else w
      some { date := ⟨monthDs ++ '/' :: dayDs ++ '/' :: yearDs⟩
             time := ⟨hourDs ++ ':' :: minDs⟩
             ampm := ampm
             sender := ⟨before.drop k⟩
             text := ⟨after.dropWhile isPySpace⟩ }
  | _ => none

/-- Python `str.split(d)` for a one-character separator, on the character
list: empty pieces are kept, the empty string yields one empty piece. -/
def splitOnChar (d : Char) : List Char → List (List Char)
  | [] => [[]]
  | c :: cs =>
    if c = d then [] :: splitOnChar d cs
    else
      match splitOnChar d cs with
      | [] => [[c]]
      | r :: rs => (c :: r) :: rs

/-- Python `str.split(d)` for a one-character separator. -/
def pySplit (s : String) (d : Char) : List String :=
  (splitOnChar d s.data).map (fun l => (⟨l⟩ : String))

/-- Python `str.lower()` (ASCII fragment). -/
def pyLower (s : String) : String :=
  ⟨s.data.map Char.toLower⟩

/-- Digit-string value (`none` if empty or a non-digit occurs), as consumed
by the `strptime` field patterns. -/
def parseNum (s : String) : Option Nat :=
  if s.data ≠ [] ∧ s.data.all (·.isDigit) then
    some (s.data.foldl (fun acc c => acc * 10 + (c.toNat - '0'.toNat)) 0)
  else none

/-- `calendar` leap-year rule used by `datetime`. -/
def isLeap (y : Nat) : Bool :=
  y % 4 == 0 && (y % 100 != 0 || y % 400 == 0)

/-- Length of a month, as validated by the `datetime` constructor. -/
def daysInMonth (y m : Nat) : Nat :=
  if m = 2 then (if isLeap y then 29 else 28)
  else if m = 4 ∨ m = 6 ∨ m = 9 ∨ m = 11 then 30
  else 31

/-- `%m` / `%I` field of `strptime`: one or two digits, value `1..12`. -/
def parseMonthLike (s : String) : Option Nat := do
  let v ← parseNum s
  if 1 ≤ v ∧ v ≤ 12 ∧ s.length ≤ 2 then some v else none

/-- `%d` field of `strptime`: one or two digits, value `1..31` (calendar
bound checked later by the `datetime` constructor). -/
def parseDayField (s : String) : Option Nat := do
  let v ← parseNum s
  if 1 ≤ v ∧ v ≤ 31 ∧ s.length ≤ 2 then some v else none

/-- `%Y` field of `strptime`: exactly four digits; the `datetime`
constructor additionally requires a positive year. -/
def parseYearField (s : String) : Option Nat := do
  let v ← parseNum s
  if 1 ≤ v ∧ s.length = 4 then some v else none

/-- `%H` field of `strptime`: one or two digits, value `0..23`. -/
def parseHour24 (s : String) : Option Nat := do
  let v ← parseNum s
  if v ≤ 23 ∧ s.length ≤ 2 then some v else none

/-- `%M` field of `strptime`: one digit, or two digits with value `0..59`. -/
def parseMinuteField (s : String) : Option Nat := do
  let v ← parseNum s
  if s.length = 1 ∨ (s.length = 2 ∧ v ≤ 59) then some v else none

/-- Embedding of `_parse_timestamp` from `whatsapp_parser.py`: splits the
date on `/`, normalises a two-digit year by prepending `"20"`, and parses
the rebuilt string with `"%m/%d/%Y, %I:%M %p"` (marker present) or
`"%m/%d/%Y, %H:%M"` (marker absent); `strptime` validates every field and
the `datetime` constructor validates the calendar day.  A failure models
the `ValueError` raised by `strptime`. -/
def parseTimestamp (dateStr timeStr : String) (ampm : Option String) :
    Option DateTime := do
  match pySplit dateStr '/' with
  | [ms, ds, ys] =>
    let ys := if ys.length = 2 then "20" ++ ys else ys
    match pySplit timeStr ':' with
    | [hs, mins] =>
      let month ← parseMonthLike ms
      let day ← parseDayField ds
      let year ← parseYearField ys
      let minute ← parseMinuteField mins
      let hour ← match ampm with
        | some a =>
          let h ← parseMonthLike hs
          if pyLower a = "am" then some (h % 12)
          else if pyLower a = "pm" then some (h % 12 + 12)
          else none
        | none => parseHour24 hs
      if day ≤ daysInMonth year month then
        some { year := year, month := month, day := day,
               hour := hour, minute := minute }
      else none
    | _ => none
  | _ => none

/-- The exception aborting `parse_chat`: `strptime` raises `ValueError`
when a header's date/time fields are not calendar-valid. -/
inductive PyError where
  | valueError
deriving DecidableEq, Repr

instance {ε α : Type*} [DecidableEq ε] [DecidableEq α] :
    DecidableEq (Except ε α) := fun a b =>
  match a, b with
  | .error e1, .error e2 =>
    if h : e1 = e2 then .isTrue (by rw [h])
    else .isFalse (fun hc => by cases hc; exact h rfl)
  | .ok a1, .ok a2 =>
    if h : a1 = a2 then .isTrue (by rw [h])
    else .isFalse (fun hc => by cases hc; exact h rfl)
  | .error _, .ok _ => .isFalse (fun hc => by cases hc)
  | .ok _, .error _ => .isFalse (fun hc => by cases hc)

/-- Loop body of `parse_chat`: one in-progress record (`cur`), remaining
lines.  A matching header finalises `cur` and starts a new record (aborting
everything if the timestamp is invalid); a non-matching line is appended to
`cur` after a line break, or silently discarded before the first header;
empty lines are skipped. -/
def parseChatAux : Option Message → List String → Except PyError (List Message)
  | cur, [] => .ok cur.toList
  | cur, l :: ls =>
    if l = "" then parseChatAux cur ls
    else
      match matchHeader l with
      | some g =>
        match parseTimestamp g.date g.time g.ampm with
        | some ts =>
          (parseChatAux (some { timestamp := ts, sender := pyStrip g.sender,
                                text := g.text }) ls).map (cur.toList ++ ·)
        | none => .error .valueError
      | none =>
        match cur with
        | some msg =>
          parseChatAux (some { msg with text := msg.text ++ "\n" ++ l }) ls
        | none => parseChatAux none ls

/-- Embedding of `parse_chat` from `whatsapp_parser.py`, over the list of
lines of the export (each line already stripped of its final newline, as
produced by iterating the file and `strip("\n")`). -/
def parse_chat (lines : List String) : Except PyError (List Message) :=
  parseChatAux none lines


/-! ## Aggregator (`analysis_utils.py`) -/

/-- One `counter[x] += 1` step on an insertion-ordered association list
(the model of a `collections.Counter`): an existing key keeps its position,
a new key is appended at the end. -/
def bump [DecidableEq α] : List (α × Nat) → α → List (α × Nat)
  | [], x => [(x, 1)]
  | p :: ps, x => if p.1 = x then (p.1, p.2 + 1) :: ps else p :: bump ps x

/-- `Counter` built by iterating a stream and incrementing, then `dict(...)`:
keys appear in first-encounter order with their multiplicities. -/
def tally [DecidableEq α] (l : List α) : List (α × Nat) :=
  l.foldl bump []

/-- The stream of senders, in message order. -/
def senderStream (msgs : List Message) : List String :=
  msgs.map (·.sender)

/-- `message_counts`: sender -> number of messages sent. -/
def message_counts (msgs : List Message) : List (String × Nat) :=
  tally (senderStream msgs)

/-- Zero-pad to two digits (`strftime` `%m`/`%d`). -/
def pad2 (n : Nat) : String :=
  if n < 10 then "0" ++ toString n else toString n

/-- `timestamp.strftime("%Y-%m-%d")`.  glibc's `%Y` prints the year
unpadded (year 999 renders as `"999"`), while `%m`/`%d` are
zero-padded. -/
def formatDay (dt : DateTime) : String :=
  toString dt.year ++ "-" ++ pad2 dt.month ++ "-" ++ pad2 dt.day

/-- `messages_by_day`: `YYYY-MM-DD` -> message count. -/
def messages_by_day (msgs : List Message) : List (String × Nat) :=
  tally (msgs.map (fun m => formatDay m.timestamp))

/-- The stream of hours, in message order. -/
def hourStream (msgs : List Message) : List Nat :=
  msgs.map (fun m => m.timestamp.hour)

/-- `messages_by_hour`: hour (0-23) -> message count. -/
def messages_by_hour (msgs : List Message) : List (Nat × Nat) :=
  tally (hourStream msgs)

/-- Days strictly before January 1 of year `y` in the proleptic Gregorian
calendar (`datetime.date.toordinal` helper). -/
def daysBeforeYear (y : Nat) : Nat :=
  (y - 1) * 365 + (y - 1) / 4 - (y - 1) / 100 + (y - 1) / 400

/-- Days of year `y` strictly before month `m`. -/
def daysBeforeMonth (y m : Nat) : Nat :=
  ((List.range (m - 1)).map (fun i => daysInMonth y (i + 1))).sum

/-- `datetime.date.toordinal`: day number with 0001-01-01 as day 1. -/
def toOrdinal (dt : DateTime) : Nat :=
  daysBeforeYear dt.year + daysBeforeMonth dt.year dt.month + dt.day

/-- `datetime.weekday()`: 0 = Monday .. 6 = Sunday (0001-01-01 is a
Monday, ordinal 1). -/
def pyWeekday (dt : DateTime) : Nat :=
  (toOrdinal dt + 6) % 7

/-- The stream of weekdays, in message order. -/
def weekdayStream (msgs : List Message) : List Nat :=
  msgs.map (fun m => pyWeekday m.timestamp)

/-- `messages_by_weekday`: weekday (0 = Monday) -> message count. -/
def messages_by_weekday (msgs : List Message) : List (Nat × Nat) :=
  tally (weekdayStream msgs)

/-- The `STOPWORDS` constant of `analysis_utils.py` (the source lists
`"can\x27t"` three times; set semantics make the duplicates harmless, and
membership in this list is the same test). -/
def STOPWORDS : List String :=
  ["the", "and", "is", "in", "to", "a", "of", "for", "on", "with", "you",
   "i", "it", "that", "at", "this", "my", "your", "me", "we", "our", "us",
   "be", "as", "are", "was", "were", "so", "but", "if", "too", "not", "or",
   "just", "it\x27s", "its", "can\x27t", "dont", "do", "did", "didn\x27t",
   "don\x27t", "u", "im", "lol", "haha", "hahaha"]

/-- ASCII fragment of Python's `\w` class used by `_WORD_RE`. -/
def isWordChar (c : Char) : Bool :=
  c.isAlphanum || c == '_'

/-- Maximal runs of characters satisfying `p` (the semantics of
`re.findall` with pattern `[class]+`, and of `\b\w+\b` since a maximal
`\w`-run has word boundaries on both sides).  `cur` is the reversed
current run. -/
def runsAux (p : Char → Bool) : List Char → List Char → List (List Char)
  | [], cur => if cur = [] then [] else [cur.reverse]
  | c :: cs, cur =>
    if p c then runsAux p cs (c :: cur)
    else if cur = [] then runsAux p cs []
    else cur.reverse :: runsAux p cs []

/-- Maximal runs of characters satisfying `p`, in order. -/
def runsOf (p : Char → Bool) (l : List Char) : List (List Char) :=
  runsAux p l []

/-- `extract_words`: lowercase word tokens, without stop words and
one-character tokens. -/
def extract_words (text : String) : List String :=
  (((runsOf isWordChar (pyLower text).data).map
      (fun r => (⟨r⟩ : String)))).filter
    (fun w => decide (w ≠ "") && decide (w ∉ STOPWORDS) && decide (1 < w.length))

/-- Stable descending insertion: `x` goes after every earlier element of
count `≥ x.2` and before the first of strictly smaller count. -/
def insertDesc (x : α × Nat) : List (α × Nat) → List (α × Nat)
  | [] => [x]
  | y :: ys => if y.2 ≤ x.2 then x :: y :: ys else y :: insertDesc x ys

/-- Stable sort by descending count: the semantics of Python's
`sorted(items, key=lambda x: x[1], reverse=True)` (equal counts keep their
original relative order). -/
def sortDesc : List (α × Nat) → List (α × Nat)
  | [] => []
  | x :: xs => insertDesc x (sortDesc xs)

/-- `Counter.most_common(n)`: the `n` largest items, documented as
equivalent to `sorted(items, key=count, reverse=True)[:n]`; a non-positive
`n` yields the empty list (`heapq.nlargest` semantics). -/
def most_common (l : List (α × Nat)) (n : Int) : List (α × Nat) :=
  (sortDesc l).take n.toNat

/-- The token stream `top_words` counts: words of every message, in
message order. -/
def wordStream (msgs : List Message) : List String :=
  (msgs.map (fun m => extract_words m.text)).flatten

/-- `top_words`: the `n` most common non-stop words across all messages. -/
def top_words (msgs : List Message) (n : Int) : List (String × Nat) :=
  most_common (tally (wordStream msgs)) n

/-- The character ranges of `_EMOJI_PATTERN`. -/
def isEmojiChar (c : Char) : Bool :=
  (0x1F600 ≤ c.toNat && c.toNat ≤ 0x1F64F) ||
  (0x1F300 ≤ c.toNat && c.toNat ≤ 0x1F5FF) ||
  (0x1F680 ≤ c.toNat && c.toNat ≤ 0x1F6FF) ||
  (0x1F1E0 ≤ c.toNat && c.toNat ≤ 0x1F1FF) ||
  (0x2700 ≤ c.toNat && c.toNat ≤ 0x27BF) ||
  (0x1F900 ≤ c.toNat && c.toNat ≤ 0x1F9FF)

/-- `extract_emojis`: maximal runs of emoji-range characters. -/
def extract_emojis (text : String) : List String :=
  (runsOf isEmojiChar text.data).map (fun r => (⟨r⟩ : String))

/-- The token stream `top_emojis` counts. -/
def emojiStream (msgs : List Message) : List String :=
  (msgs.map (fun m => extract_emojis m.text)).flatten

/-- `top_emojis`: the `n` most common emoji tokens across all messages. -/
def top_emojis (msgs : List Message) (n : Int) : List (String × Nat) :=
  most_common (tally (emojiStream msgs)) n

/-! ## Roast engine (`roast_engine.py`) -/

/-- Scan of Python's `max(items, key=lambda x: x[1])`: keeps the first
item, replacing it only on a strictly greater count. -/
def pyMaxGo : (α × Nat) → List (α × Nat) → (α × Nat)
  | best, [] => best
  | best, y :: ys => pyMaxGo (if best.2 < y.2 then y else best) ys

/-- `max(items, key=lambda x: x[1])`; `none` on the empty list (where
Python raises). -/
def pyMax : List (α × Nat) → Option (α × Nat)
  | [] => none
  | x :: xs => some (pyMaxGo x xs)

/-- Round half to even: the semantics of Python 3's built-in `round`,
applied to the exact rational value of an IEEE double. -/
def roundHalfEven (q : ℚ) : ℤ :=
  if q - ⌊q⌋ < 1/2 then ⌊q⌋
  else if (1 : ℚ)/2 < q - ⌊q⌋ then ⌊q⌋ + 1
  else if ⌊q⌋ % 2 = 0 then ⌊q⌋ else ⌊q⌋ + 1

/-- Number of binary digits of `n` (0 for 0), computed with the first
argument as structural fuel (`n` itself suffices). -/
def bitsAux : Nat → Nat → Nat
  | 0, _ => 0
  | fuel + 1, n => if n = 0 then 0 else bitsAux fuel (n / 2) + 1

/-- Number of binary digits of `n`: for `n ≥ 1`,
`2 ^ (bitLen n - 1) ≤ n < 2 ^ bitLen n`. -/
def bitLen (n : Nat) : Nat :=
  bitsAux n n

/-- Integer division of `a` by `b` rounded to the nearest quotient with
ties to even. -/
def rdivEven (a b : Nat) : Nat :=
  let q := a / b
  let r := a % b
  if 2 * r < b then q
  else if b < 2 * r then q + 1
  else if q % 2 = 0 then q else q + 1

/-- Binary exponent `⌊log₂ (p / q)⌋` of a positive rational, from the bit
lengths of numerator and denominator (they pin it down to within one, and
one integer comparison decides). -/
def fexp (p q : Nat) : ℤ :=
  let e0 : ℤ := (bitLen p : ℤ) - (bitLen q : ℤ)
  if 0 ≤ e0 then (if q * 2 ^ e0.toNat ≤ p then e0 else e0 - 1)
  else (if q ≤ p * 2 ^ (-e0).toNat then e0 else e0 - 1)

/-- 53-bit significand of the IEEE double nearest `p / q`: the value
`(p / q) * 2 ^ (52 - fexp p q)` rounded to the nearest integer with ties
to even, computed in integer arithmetic. -/
def fmant (p q : Nat) : Nat :=
  let e := fexp p q
  if 0 ≤ 52 - e then rdivEven (p * 2 ^ (52 - e).toNat) q
  else rdivEven p (q * 2 ^ (e - 52).toNat)

/-- The IEEE double nearest to the positive rational `p / q` (round to
nearest, ties to even), as an exact rational `numerator / denominator`
pair: `fmant p q * 2 ^ (fexp p q - 52)`.  The exponent is unbounded, so
overflow and gradual underflow are not modelled: the value is exact
whenever the true double result is in the normal range, which covers
every magnitude `_percentage` reaches from actual chats. -/
def floatOfRatPos (p q : Nat) : Nat × Nat :=
  let e := fexp p q
  let m := fmant p q
  if 0 ≤ e - 52 then (m * 2 ^ (e - 52).toNat, 1) else (m, 2 ^ (52 - e).toNat)

/-- The exact rational value of a numerator/denominator pair. -/
def valQ (pr : Nat × Nat) : ℚ :=
  (pr.1 : ℚ) / (pr.2 : ℚ)

/-- First float operation of `_percentage`: `part / whole` (Python true
division of integers: the correctly rounded double of the quotient). -/
def fl1 (part whole : Nat) : Nat × Nat :=
  floatOfRatPos part whole

/-- Second float operation of `_percentage`: the double product
`fl(part / whole) * 100` (100 is exact, so this is the correctly rounded
double of the exact rational `fl(part / whole) * 100`). -/
def fl2 (part whole : Nat) : Nat × Nat :=
  floatOfRatPos ((fl1 part whole).1 * 100) (fl1 part whole).2

/-- `_percentage` from `roast_engine.py`:
`int(round(part / whole * 100)) if whole else 0`.  The float expression
`part / whole * 100` is two correctly rounded IEEE double operations,
modelled by `fl2`; Python's `round` then rounds the resulting double to
the nearest integer with ties to even (`rdivEven` on its exact rational
value).  A zero `part` short-circuits: every operation on `0.0` is
exact. -/
def pyPercentage (part whole : Nat) : ℤ :=
  if whole ≠ 0 then
    if part = 0 then 0
    else (rdivEven (fl2 part whole).1 (fl2 part whole).2 : ℤ)
  else 0

/-- Modelled from the spec's words, for comparison with `pyPercentage`:
rounding to the nearest integer with halves away from zero. -/
def roundHalfAwayFromZero (q : ℚ) : ℤ :=
  if 0 ≤ q then ⌊q + 1/2⌋ else -⌊-q + 1/2⌋

/-- Modelled from the spec's words: `round(part / whole * 100)` with
"standard round-half-away-from-zero", guarded at `whole = 0`. -/
def specPercentage (part whole : Nat) : ℤ :=
  if whole = 0 then 0 else roundHalfAwayFromZero ((part : ℚ) / (whole : ℚ) * 100)

/-- `_format_hour`: 12-hour clock with AM/PM suffix; hours 0 and 12 both
render as `12`. -/
def formatHour (hour : Nat) : String :=
  let suffix := if hour < 12 then "AM" else "PM"
  let h := hour % 12
  let h := if h = 0 then 12 else h
  toString h ++ suffix

/-- `_WEEKDAY_NAMES.get(w, "Unknown day")`. -/
def weekdayName (w : Nat) : String :=
  if w = 0 then "Monday" else if w = 1 then "Tuesday"
  else if w = 2 then "Wednesday" else if w = 3 then "Thursday"
  else if w = 4 then "Friday" else if w = 5 then "Saturday"
  else if w = 6 then "Sunday" else "Unknown day"

/-- Level normalisation at the top of `generate_roast`: lowercase, and any
unrecognised value falls back to `"medium"`. -/
def normLevel (level : String) : String :=
  let l := pyLower level
  if l = "mild" ∨ l = "medium" ∨ l = "savage" then l else "medium"

/-- `sorted(counts.items(), key=lambda x: x[1], reverse=True)`. -/
def sortedCounts (msgs : List Message) : List (String × Nat) :=
  sortDesc (message_counts msgs)

/-- `sorted_counts[0]`: the top sender and count (junk default on the
empty list, unreachable under the empty-input guard). -/
def topEntryOf (msgs : List Message) : String × Nat :=
  (sortedCounts msgs).head?.getD ("", 0)

/-- `sorted_counts[-1]`: the bottom sender and count. -/
def bottomEntryOf (msgs : List Message) : String × Nat :=
  (sortedCounts msgs).getLast?.getD ("", 0)

/-- `top_pct = _percentage(top_count, total_messages)`. -/
def topPctOf (msgs : List Message) : ℤ :=
  pyPercentage (topEntryOf msgs).2 msgs.length

/-- `bottom_pct = _percentage(bottom_count, total_messages)`. -/
def bottomPctOf (msgs : List Message) : ℤ :=
  pyPercentage (bottomEntryOf msgs).2 msgs.length

/-- `peak_hour = max(hour_counts.items(), key=lambda x: x[1])[0]`. -/
def peak_hour (msgs : List Message) : Nat :=
  ((pyMax (messages_by_hour msgs)).getD (0, 0)).1

/-- `peak_weekday = max(weekday_counts.items(), key=lambda x: x[1])[0]`. -/
def peak_weekday (msgs : List Message) : Nat :=
  ((pyMax (messages_by_weekday msgs)).getD (0, 0)).1

/-- The talkative-sender template line (three level variants). -/
def mkTopLine (level sender : String) (pct : ℤ) : String :=
  if level = "mild" then
    sender ++ " sent the most messages at " ++ toString pct ++
      "% of the chat. Quite the social butterfly!"
  else if level = "medium" then
    sender ++ " dominated the chat with " ++ toString pct ++
      "% of the messages. Maybe let someone else get a word in?"
  else
    sender ++ " hogged " ++ toString pct ++
      "% of the conversation. Ever heard of a hobby outside this chat?"

/-- The silent-sender template line. -/
def mkBottomLine (level sender : String) (pct : ℤ) : String :=
  if level = "mild" then
    sender ++ " only contributed " ++ toString pct ++
      "% of messages. Lurking is an art form, after all."
  else if level = "medium" then
    sender ++ " clocked in at just " ++ toString pct ++
      "% of messages. Do you even know this chat exists?"
  else
    sender ++ " barely registered at " ++ toString pct ++
      "% of messages. Silent member or professional ghoster?"

/-- The peak-activity template line. -/
def mkTimeLine (level hourStr dayName : String) : String :=
  if level = "mild" then
    "Most chatting happens around " ++ hourStr ++ " on " ++ dayName ++
      ". Night owls with a schedule, perhaps?"
  else if level = "medium" then
    "Peak chat time is " ++ hourStr ++ " on " ++ dayName ++
      ". Who needs sleep when you have memes?"
  else
    "You lot blow up the chat at " ++ hourStr ++ " on " ++ dayName ++
      ". Congratulations on never respecting bed time."

/-- The favourite-emoji template line. -/
def mkEmojiLine (level emoji : String) (count : Nat) : String :=
  if level = "mild" then
    "Your favourite emoji appears to be " ++ emoji ++ ", used " ++
      toString count ++ " times. Expressive bunch!"
  else if level = "medium" then
    "Top emoji award goes to " ++ emoji ++ " – dropped " ++
      toString count ++ " times. Maybe diversify your feelings?"
  else
    emoji ++ " shows up " ++ toString count ++
      " times. Ever considered using words like a normal human?"

/-- The favourite-word template line. -/
def mkWordLine (level word : String) (count : Nat) : String :=
  if level = "mild" then
    "The word \x27" ++ word ++ "\x27 comes up a lot (" ++ toString count ++
      " times). Looks like a favourite topic!"
  else if level = "medium" then
    "You say \x27" ++ word ++ "\x27 " ++ toString count ++
      " times. Is that a cry for help or just laziness?"
  else
    "\x27" ++ word ++ "\x27 appears " ++ toString count ++
      " times. We get it, you have a limited vocabulary."

/-- The `lines` list built by the non-empty branch of `generate_roast`
(`level` already normalised).  The emoji and word lines are appended under
Python's truthiness test on `top_emoji` / `top_word` (`None` or the empty
string are falsy). -/
def roastLines (msgs : List Message) (level : String) : List String :=
  let l1 := mkTopLine level (topEntryOf msgs).1 (topPctOf msgs)
  let l2 := mkBottomLine level (bottomEntryOf msgs).1 (bottomPctOf msgs)
  let l3 := mkTimeLine level (formatHour (peak_hour msgs))
    (weekdayName (peak_weekday msgs))
  let withEmoji :=
    match (top_emojis msgs 1).head? with
    | some (e, c) => if e ≠ "" then [l1, l2, l3, mkEmojiLine level e c]
                     else [l1, l2, l3]
    | none => [l1, l2, l3]
  match (top_words msgs 1).head? with
  | some (w, c) => if w ≠ "" then withEmoji ++ [mkWordLine level w c]
                   else withEmoji
  | none => withEmoji

/-- `"\n".join(lines)`: the lines joined by single line breaks, with no
trailing break. -/
def joinNL : List String → String
  | [] => ""
  | [a] => a
  | a :: rest => a ++ "\n" ++ joinNL rest

/-- `generate_roast` from `roast_engine.py`. -/
def generate_roast (messages : List Message) (level : String) : String :=
  let lvl := normLevel level
  if messages.length = 0 then "No messages to roast."
  else joinNL (roastLines messages lvl)

/-! ## Helper notions used by the statements -/

/-- Key column of an association list. -/
def keys (l : List (α × Nat)) : List α :=
  l.map Prod.fst

/-- The keys of `l` not in `seen`, in first-occurrence order. -/
def newKeys [DecidableEq α] (seen : List α) : List α → List α
  | [] => []
  | x :: xs => if x ∈ seen then newKeys seen xs else x :: newKeys (x :: seen) xs

/-- Index of the first occurrence of `x` (length of the list if absent). -/
def firstIdx [DecidableEq α] (x : α) : List α → Nat
  | [] => 0
  | y :: ys => if y = x then 0 else firstIdx x ys + 1

/-- Ranking used by a stable descending sort of a counter built over
`stream`: larger count first, equal counts in first-occurrence order. -/
def rankBefore [DecidableEq κ] (stream : List κ) (a b : κ × Nat) : Prop :=
  b.2 < a.2 ∨ (a.2 = b.2 ∧ firstIdx a.1 stream < firstIdx b.1 stream)

/-- Calendar validity of a timestamp, as guaranteed by the `datetime`
constructor. -/
def validDT (dt : DateTime) : Prop :=
  1 ≤ dt.year ∧ 1 ≤ dt.month ∧ dt.month ≤ 12 ∧ 1 ≤ dt.day ∧
    dt.day ≤ daysInMonth dt.year dt.month ∧ dt.hour ≤ 23 ∧ dt.minute ≤ 59

instance (dt : DateTime) : Decidable (validDT dt) := by
  unfold validDT; infer_instance

/-- The identity of a message record: the fields fixed at its header line
(the `text` field alone grows with continuation lines). -/
def msgInfo (m : Message) : DateTime × String :=
  (m.timestamp, m.sender)

/-- The record identity a header line gives rise to, if any. -/
def headerInfo (l : String) : Option (DateTime × String) :=
  (matchHeader l).bind fun g =>
    (parseTimestamp g.date g.time g.ampm).map fun ts => (ts, pyStrip g.sender)

/-- A string with no leading and no trailing whitespace (the state
`str.strip()` leaves its argument in). -/
def strippedStr (s : String) : Prop :=
  (∀ c, s.data.head? = some c → isPySpace c = false) ∧
  (∀ c, s.data.getLast? = some c → isPySpace c = false)

/-- A small export: two header lines separated by a continuation line. -/
def demoLines : List String :=
  ["12/30/24, 9:15 PM - Alice: Hey!", "note to self",
   "12/31/24, 10:00 AM - Bob: Hello"]

/-- The records `parse_chat` recovers from `demoLines`. -/
def demoParsed : List Message :=
  [{ timestamp := { year := 2024, month := 12, day := 30, hour := 21, minute := 15 },
     sender := "Alice", text := "Hey!\nnote to self" },
   { timestamp := { year := 2024, month := 12, day := 31, hour := 10, minute := 0 },
     sender := "Bob", text := "Hello" }]

/-- Two messages whose hours (15, then 3) tie at one message each:
concrete input for the peak-hour tie-break. -/
def cexMsgsHour : List Message :=
  [{ timestamp := { year := 2024, month := 1, day := 1, hour := 15, minute := 0 },
     sender := "A", text := "x" },
   { timestamp := { year := 2024, month := 1, day := 2, hour := 3, minute := 0 },
     sender := "A", text := "y" }]

/-- One message carrying both a countable word and an emoji token
(U+2702, in the Dingbats range of `_EMOJI_PATTERN`). -/
def demoMsg : Message :=
  { timestamp := { year := 2024, month := 1, day := 1, hour := 9, minute := 15 },
    sender := "Alice", text := "gossip gossip \u2702" }

/-! ## Counter lemmas: keys in first-encounter order -/

section CounterLemmas

variable {α : Type*} [DecidableEq α]

theorem keys_bump (acc : List (α × Nat)) (x : α) :
    keys (bump acc x) =
      if x ∈ keys acc then keys acc else keys acc ++ [x] := by
  induction acc with
  | nil => simp [bump, keys]
  | cons p ps ih =>
    by_cases h : p.1 = x
    · simp [bump, keys, h]
    · rw [bump, if_neg h]
      have hxiff : x ∈ keys (p :: ps) ↔ x ∈ keys ps := by
        simp only [keys, List.map_cons, List.mem_cons]
        constructor
        · rintro (he | hm)
          · exact absurd he.symm h
          · exact hm
        · exact Or.inr
      have hk : keys (p :: bump ps x) = p.1 :: keys (bump ps x) := by
        simp [keys]
      rw [hk, ih]
      by_cases hmem : x ∈ keys ps
      · rw [if_pos hmem, if_pos (hxiff.mpr hmem)]
        simp [keys]
      · rw [if_neg hmem, if_neg (fun hh => hmem (hxiff.mp hh))]
        simp [keys]

theorem newKeys_congr (l : List α) :
    ∀ s₁ s₂, (∀ a, a ∈ s₁ ↔ a ∈ s₂) → newKeys s₁ l = newKeys s₂ l := by
  induction l with
  | nil => intro s₁ s₂ _; simp [newKeys]
  | cons x xs ih =>
    intro s₁ s₂ h
    by_cases hx : x ∈ s₁
    · rw [newKeys, newKeys, if_pos hx, if_pos ((h x).1 hx)]
      exact ih _ _ h
    · rw [newKeys, newKeys, if_neg hx, if_neg (fun hx2 => hx ((h x).2 hx2))]
      have : ∀ a, a ∈ x :: s₁ ↔ a ∈ x :: s₂ := by
        intro a; simp only [List.mem_cons]; rw [h a]
      rw [ih _ _ this]

theorem keys_foldl_bump (l : List α) :
    ∀ acc, keys (l.foldl bump acc) = keys acc ++ newKeys (keys acc) l := by
  induction l with
  | nil => intro acc; simp [newKeys]
  | cons x xs ih =>
    intro acc
    rw [List.foldl_cons, ih (bump acc x), keys_bump]
    by_cases hx : x ∈ keys acc
    · rw [if_pos hx, newKeys, if_pos hx]
    · rw [if_neg hx, newKeys, if_neg hx]
      rw [newKeys_congr xs (keys acc ++ [x]) (x :: keys acc)
        (by intro a; simp [or_comm])]
      simp

theorem mem_newKeys (l : List α) :
    ∀ seen a, a ∈ newKeys seen l → a ∉ seen ∧ a ∈ l := by
  induction l with
  | nil => intro seen a h; simp [newKeys] at h
  | cons x xs ih =>
    intro seen a h
    rw [newKeys] at h
    by_cases hx : x ∈ seen
    · rw [if_pos hx] at h
      obtain ⟨h1, h2⟩ := ih seen a h
      exact ⟨h1, List.mem_cons_of_mem _ h2⟩
    · rw [if_neg hx] at h
      rcases List.mem_cons.mp h with rfl | h2
      · exact ⟨hx, List.mem_cons_self _ _⟩
      · obtain ⟨h1, h2'⟩ := ih _ a h2
        refine ⟨fun hs => h1 (List.mem_cons_of_mem _ hs), List.mem_cons_of_mem _ h2'⟩

theorem newKeys_pairwise (l : List α) :
    ∀ seen, (newKeys seen l).Pairwise (fun a b => firstIdx a l < firstIdx b l) := by
  induction l with
  | nil => intro seen; simp [newKeys]
  | cons x xs ih =>
    intro seen
    rw [newKeys]
    by_cases hx : x ∈ seen
    · rw [if_pos hx]
      refine (ih seen).imp_of_mem ?_
      intro a b ha hb hab
      have ha' : a ≠ x := fun he => (mem_newKeys xs seen a ha).1 (he ▸ hx)
      have hb' : b ≠ x := fun he => (mem_newKeys xs seen b hb).1 (he ▸ hx)
      rw [firstIdx, if_neg (fun he => ha' he.symm), firstIdx,
        if_neg (fun he => hb' he.symm)]
      omega
    · rw [if_neg hx]
      refine List.Pairwise.cons ?_ ?_
      · intro b hb
        have hb' : b ≠ x := by
          intro he
          exact (mem_newKeys xs (x :: seen) b hb).1 (he ▸ List.mem_cons_self _ _)
        rw [firstIdx, if_pos rfl, firstIdx, if_neg (fun he => hb' he.symm)]
        omega
      · refine (ih (x :: seen)).imp_of_mem ?_
        intro a b ha hb hab
        have ha' : a ≠ x := fun he =>
          (mem_newKeys xs (x :: seen) a ha).1 (he ▸ List.mem_cons_self _ _)
        have hb' : b ≠ x := fun he =>
          (mem_newKeys xs (x :: seen) b hb).1 (he ▸ List.mem_cons_self _ _)
        rw [firstIdx, if_neg (fun he => ha' he.symm), firstIdx,
          if_neg (fun he => hb' he.symm)]
        omega

theorem keys_tally (l : List α) : keys (tally l) = newKeys [] l := by
  rw [tally, keys_foldl_bump]
  simp [keys]

theorem tally_pairwise (l : List α) :
    (tally l).Pairwise (fun p q : α × Nat => firstIdx p.1 l < firstIdx q.1 l) := by
  have h := newKeys_pairwise l []
  rw [← keys_tally, keys, List.pairwise_map] at h
  exact h

theorem mem_of_mem_keys_tally {l : List α} {a : α}
    (h : a ∈ keys (tally l)) : a ∈ l := by
  rw [keys_tally] at h
  exact (mem_newKeys l [] a h).2

theorem tally_ne_nil {l : List α} (h : l ≠ []) : tally l ≠ [] := by
  cases l with
  | nil => exact absurd rfl h
  | cons x xs =>
    intro ht
    have hk : keys (tally (x :: xs)) = [] := by rw [ht]; rfl
    rw [keys_tally, newKeys] at hk
    simp at hk

theorem foldl_bump_const (l : List α) (s : α) :
    ∀ n, (∀ x ∈ l, x = s) → l.foldl bump [(s, n)] = [(s, n + l.length)] := by
  induction l with
  | nil => intro n _; simp
  | cons x xs ih =>
    intro n h
    have hx : x = s := h x (List.mem_cons_self _ _)
    subst hx
    rw [List.foldl_cons]
    have hb : bump [(x, n)] x = [(x, n + 1)] := by simp [bump]
    rw [hb, ih (n + 1) (fun y hy => h y (List.mem_cons_of_mem _ hy))]
    simp
    omega

theorem tally_const {l : List α} {s : α}
    (h : ∀ x ∈ l, x = s) (hne : l ≠ []) : tally l = [(s, l.length)] := by
  cases l with
  | nil => exact absurd rfl hne
  | cons x xs =>
    have hx : x = s := h x (List.mem_cons_self _ _)
    subst hx
    rw [tally, List.foldl_cons]
    have hb : bump ([] : List (α × Nat)) x = [(x, 1)] := rfl
    rw [hb, foldl_bump_const xs x 1 (fun y hy => h y (List.mem_cons_of_mem _ hy))]
    simp
    omega

end CounterLemmas

/-! ## Stable descending sort lemmas -/

section SortLemmas

variable {β : Type*}

theorem insertDesc_perm (x : β × Nat) (l : List (β × Nat)) :
    (insertDesc x l).Perm (x :: l) := by
  induction l with
  | nil => simp [insertDesc]
  | cons y ys ih =>
    rw [insertDesc]
    by_cases h : y.2 ≤ x.2
    · rw [if_pos h]
    · rw [if_neg h]
      exact (ih.cons y).trans (List.Perm.swap x y ys)

theorem sortDesc_perm (l : List (β × Nat)) : (sortDesc l).Perm l := by
  induction l with
  | nil => simp [sortDesc]
  | cons x xs ih =>
    rw [sortDesc]
    exact (insertDesc_perm x (sortDesc xs)).trans (ih.cons x)

theorem insertDesc_pairwise {Q : β × Nat → β × Nat → Prop} (x : β × Nat)
    (l : List (β × Nat))
    (hl : l.Pairwise (fun a b => b.2 < a.2 ∨ (a.2 = b.2 ∧ Q a b)))
    (hx : ∀ y ∈ l, Q x y) :
    (insertDesc x l).Pairwise (fun a b => b.2 < a.2 ∨ (a.2 = b.2 ∧ Q a b)) := by
  induction l with
  | nil => simp [insertDesc]
  | cons y ys ih =>
    rw [insertDesc]
    obtain ⟨hy, hys⟩ := List.pairwise_cons.mp hl
    by_cases h : y.2 ≤ x.2
    · rw [if_pos h]
      refine List.Pairwise.cons ?_ hl
      intro z hz
      rcases List.mem_cons.mp hz with rfl | hz'
      · rcases Nat.lt_or_ge z.2 x.2 with h2 | h2
        · exact Or.inl h2
        · exact Or.inr ⟨Nat.le_antisymm h2 h, hx z (List.mem_cons_self _ _)⟩
      · have hz2 : z.2 ≤ y.2 := by
          rcases hy z hz' with h2 | ⟨h2, _⟩
          · exact Nat.le_of_lt h2
          · exact Nat.le_of_eq h2.symm
        rcases Nat.lt_or_ge z.2 x.2 with h2 | h2
        · exact Or.inl h2
        · exact Or.inr ⟨Nat.le_antisymm h2 (le_trans hz2 h),
            hx z (List.mem_cons_of_mem _ hz')⟩
    · rw [if_neg h]
      have hxy : x.2 < y.2 := Nat.lt_of_not_le h
      refine List.Pairwise.cons ?_
        (ih hys (fun z hz => hx z (List.mem_cons_of_mem _ hz)))
      intro z hz
      have hz' : z ∈ x :: ys := (insertDesc_perm x ys).mem_iff.mp hz
      rcases List.mem_cons.mp hz' with rfl | hz''
      · exact Or.inl hxy
      · exact hy z hz''

theorem sortDesc_pairwise {Q : β × Nat → β × Nat → Prop} (l : List (β × Nat))
    (hl : l.Pairwise Q) :
    (sortDesc l).Pairwise (fun a b => b.2 < a.2 ∨ (a.2 = b.2 ∧ Q a b)) := by
  induction l with
  | nil => simp [sortDesc]
  | cons x xs ih =>
    obtain ⟨hx, hxs⟩ := List.pairwise_cons.mp hl
    rw [sortDesc]
    refine insertDesc_pairwise x _ (ih hxs) ?_
    intro y hy
    exact hx y ((sortDesc_perm xs).mem_iff.mp hy)

end SortLemmas

/-! ## Lemmas on the first-maximum scan -/

section MaxLemmas

variable {β : Type*}

theorem pyMaxGo_spec (l : List (β × Nat)) : ∀ best : β × Nat,
    best.2 ≤ (pyMaxGo best l).2 ∧ (∀ p ∈ l, p.2 ≤ (pyMaxGo best l).2) ∧
    (pyMaxGo best l = best ∨
      ∃ l₁ l₂, l = l₁ ++ pyMaxGo best l :: l₂ ∧ best.2 < (pyMaxGo best l).2 ∧
        ∀ p ∈ l₁, p.2 < (pyMaxGo best l).2) := by
  induction l with
  | nil =>
    intro best
    exact ⟨le_refl _, by simp, Or.inl rfl⟩
  | cons y ys ih =>
    intro best
    rw [pyMaxGo]
    by_cases h : best.2 < y.2
    · rw [if_pos h]
      obtain ⟨h1, h2, h3⟩ := ih y
      refine ⟨le_trans (Nat.le_of_lt h) h1, ?_, ?_⟩
      · intro p hp
        rcases List.mem_cons.mp hp with rfl | hp'
        · exact h1
        · exact h2 p hp'
      · right
        rcases h3 with he | ⟨l₁, l₂, hdec, hlt, hall⟩
        · exact ⟨[], ys, by rw [he, List.nil_append], by rw [he]; exact h, by simp⟩
        · refine ⟨y :: l₁, l₂, by rw [List.cons_append, ← hdec],
            lt_trans h hlt, ?_⟩
          intro p hp
          rcases List.mem_cons.mp hp with rfl | hp'
          · exact hlt
          · exact hall p hp'
    · rw [if_neg h]
      have hy : y.2 ≤ best.2 := Nat.le_of_not_lt h
      obtain ⟨h1, h2, h3⟩ := ih best
      refine ⟨h1, ?_, ?_⟩
      · intro p hp
        rcases List.mem_cons.mp hp with rfl | hp'
        · exact le_trans hy h1
        · exact h2 p hp'
      · rcases h3 with he | ⟨l₁, l₂, hdec, hlt, hall⟩
        · exact Or.inl he
        · right
          refine ⟨y :: l₁, l₂, by rw [List.cons_append, ← hdec], hlt, ?_⟩
          intro p hp
          rcases List.mem_cons.mp hp with rfl | hp'
          · exact Nat.lt_of_le_of_lt hy hlt
          · exact hall p hp'

theorem pyMax_spec {l : List (β × Nat)} {x : β × Nat} (h : pyMax l = some x) :
    x ∈ l ∧ (∀ p ∈ l, p.2 ≤ x.2) ∧
      ∃ l₁ l₂, l = l₁ ++ x :: l₂ ∧ ∀ p ∈ l₁, p.2 < x.2 := by
  cases l with
  | nil => simp [pyMax] at h
  | cons a xs =>
    rw [pyMax, Option.some_inj] at h
    obtain ⟨h1, h2, h3⟩ := pyMaxGo_spec xs a
    rw [h] at h1 h2 h3
    rcases h3 with he | ⟨l₁, l₂, hdec, hlt, hall⟩
    · subst he
      refine ⟨List.mem_cons_self _ _, ?_, [], xs, by rw [List.nil_append], by simp⟩
      intro p hp
      rcases List.mem_cons.mp hp with rfl | hp'
      · exact le_refl _
      · exact h2 p hp'
    · refine ⟨?_, ?_, a :: l₁, l₂, by rw [List.cons_append, ← hdec], ?_⟩
      · rw [hdec]
        exact List.mem_cons_of_mem _
          (List.mem_append_right _ (List.mem_cons_self _ _))
      · intro p hp
        rcases List.mem_cons.mp hp with rfl | hp'
        · exact h1
        · exact h2 p hp'
      · intro p hp
        rcases List.mem_cons.mp hp with rfl | hp'
        · exact hlt
        · exact hall p hp'

end MaxLemmas

/-! ## First maximum over a counter -/

theorem pyMax_tally_first {α : Type*} [DecidableEq α] {l : List α}
    {x : α × Nat} (h : pyMax (tally l) = some x) :
    x ∈ tally l ∧ (∀ p ∈ tally l, p.2 ≤ x.2) ∧
      ∀ p ∈ tally l, p.2 = x.2 → p = x ∨ firstIdx x.1 l < firstIdx p.1 l := by
  obtain ⟨hmem, hmax, l₁, l₂, hdec, hlt⟩ := pyMax_spec h
  refine ⟨hmem, hmax, ?_⟩
  intro p hp hpe
  have hpw := tally_pairwise l
  rw [hdec] at hpw hp
  rcases List.mem_append.mp hp with hp1 | hp2
  · exact absurd (hlt p hp1) (by rw [hpe]; exact lt_irrefl _)
  · rcases List.mem_cons.mp hp2 with rfl | hp3
    · exact Or.inl rfl
    · right
      have h2 := (List.pairwise_append.mp hpw).2.1
      exact (List.pairwise_cons.mp h2).1 p hp3

theorem pyMax_tally_getD {α : Type*} [DecidableEq α] (l : List α)
    (d : α × Nat) (hne : l ≠ []) :
    ∃ c, (((pyMax (tally l)).getD d).1, c) ∈ tally l ∧
      (∀ p ∈ tally l, p.2 ≤ c) ∧
      ∀ p ∈ tally l, p.2 = c → p.1 = ((pyMax (tally l)).getD d).1 ∨
        firstIdx ((pyMax (tally l)).getD d).1 l < firstIdx p.1 l := by
  have ht := tally_ne_nil hne
  cases hm : pyMax (tally l) with
  | none =>
    exfalso
    cases htl : tally l with
    | nil => exact ht htl
    | cons a xs => rw [htl, pyMax] at hm; cases hm
  | some x =>
    obtain ⟨hmem, hmax, hfirst⟩ := pyMax_tally_first hm
    simp only [Option.getD_some]
    refine ⟨x.2, by simpa using hmem, hmax, ?_⟩
    intro p hp hpe
    rcases hfirst p hp hpe with he | hlt
    · left; rw [he]
    · right; exact hlt

/-! ## Tokens are never the empty string -/

theorem runsAux_ne_nil (p : Char → Bool) (l : List Char) :
    ∀ cur r, r ∈ runsAux p l cur → r ≠ [] := by
  induction l with
  | nil =>
    intro cur r hr
    rw [runsAux] at hr
    by_cases hc : cur = []
    · rw [if_pos hc] at hr; simp at hr
    · rw [if_neg hc] at hr
      have he : r = cur.reverse := List.mem_singleton.mp hr
      subst he
      intro h
      exact hc (List.reverse_eq_nil_iff.mp h)
  | cons c cs ih =>
    intro cur r hr
    rw [runsAux] at hr
    by_cases hp : p c
    · rw [if_pos hp] at hr; exact ih _ r hr
    · rw [if_neg hp] at hr
      by_cases hc : cur = []
      · rw [if_pos hc] at hr; exact ih _ r hr
      · rw [if_neg hc] at hr
        rcases List.mem_cons.mp hr with rfl | hr'
        · intro h; exact hc (List.reverse_eq_nil_iff.mp h)
        · exact ih _ r hr'

theorem mem_extract_emojis_ne_empty {t e : String}
    (h : e ∈ extract_emojis t) : e ≠ "" := by
  rw [extract_emojis] at h
  rcases List.mem_map.mp h with ⟨r, hr, rfl⟩
  rw [runsOf] at hr
  have hne := runsAux_ne_nil isEmojiChar t.data [] r hr
  intro he
  apply hne
  have hd : (String.mk r).data = ("" : String).data := by rw [he]
  simpa using hd

theorem mem_extract_words_ne_empty {t w : String}
    (h : w ∈ extract_words t) : w ≠ "" := by
  rw [extract_words] at h
  have hc := (List.mem_filter.mp h).2
  simp only [Bool.and_eq_true, decide_eq_true_eq] at hc
  exact hc.1.1

theorem mem_top_emojis_ne_empty {msgs : List Message} {n : Int}
    {p : String × Nat} (h : p ∈ top_emojis msgs n) : p.1 ≠ "" := by
  have h1 : p ∈ sortDesc (tally (emojiStream msgs)) :=
    List.take_subset _ _ h
  have h2 : p ∈ tally (emojiStream msgs) :=
    (sortDesc_perm _).mem_iff.mp h1
  have h3 : p.1 ∈ emojiStream msgs :=
    mem_of_mem_keys_tally (List.mem_map_of_mem Prod.fst h2)
  rcases List.mem_flatten.mp h3 with ⟨s, hs1, hs2⟩
  rcases List.mem_map.mp hs1 with ⟨m, _, rfl⟩
  exact mem_extract_emojis_ne_empty hs2

theorem mem_top_words_ne_empty {msgs : List Message} {n : Int}
    {p : String × Nat} (h : p ∈ top_words msgs n) : p.1 ≠ "" := by
  have h1 : p ∈ sortDesc (tally (wordStream msgs)) :=
    List.take_subset _ _ h
  have h2 : p ∈ tally (wordStream msgs) :=
    (sortDesc_perm _).mem_iff.mp h1
  have h3 : p.1 ∈ wordStream msgs :=
    mem_of_mem_keys_tally (List.mem_map_of_mem Prod.fst h2)
  rcases List.mem_flatten.mp h3 with ⟨s, hs1, hs2⟩
  rcases List.mem_map.mp hs1 with ⟨m, _, rfl⟩
  exact mem_extract_words_ne_empty hs2

/-! ## Joining lines -/

theorem joinNL_cons_cons (a b : String) (l : List String) :
    joinNL (a :: b :: l) = a ++ "\n" ++ joinNL (b :: l) := by
  rw [joinNL]
  simp

/-! ## Rounding lemmas -/

theorem roundHalfEven_spec (q : ℚ) :
    |((roundHalfEven q : ℤ) : ℚ) - q| ≤ 1/2 ∧
      (|((roundHalfEven q : ℤ) : ℚ) - q| = 1/2 → roundHalfEven q % 2 = 0) := by
  have h0 : (0 : ℚ) ≤ q - ⌊q⌋ := sub_nonneg.mpr (Int.floor_le q)
  have h1 : q - ⌊q⌋ < 1 := by
    have := Int.lt_floor_add_one q
    linarith
  rw [roundHalfEven]
  by_cases hlt : q - ⌊q⌋ < 1/2
  · rw [if_pos hlt]
    have habs : |((⌊q⌋ : ℚ)) - q| = q - ⌊q⌋ := by
      rw [abs_sub_comm, abs_of_nonneg h0]
    constructor
    · rw [habs]; linarith
    · intro hc; rw [habs] at hc; linarith
  · by_cases hgt : 1/2 < q - ⌊q⌋
    · rw [if_neg hlt, if_pos hgt]
      have habs : |((((⌊q⌋ : ℤ) + 1 : ℤ)) : ℚ) - q| = 1 - (q - ⌊q⌋) := by
        push_cast
        rw [abs_of_nonneg (by linarith)]
        ring
      constructor
      · rw [habs]; linarith
      · intro hc; rw [habs] at hc; linarith
    · have heq : q - ⌊q⌋ = 1/2 := le_antisymm (not_lt.mp hgt) (not_lt.mp hlt)
      rw [if_neg hlt, if_neg hgt]
      by_cases hev : ⌊q⌋ % 2 = 0
      · rw [if_pos hev]
        constructor
        · rw [abs_sub_comm, abs_of_nonneg h0, heq]
        · intro _; exact hev
      · rw [if_neg hev]
        constructor
        · have : ((((⌊q⌋ : ℤ) + 1 : ℤ)) : ℚ) - q = 1/2 := by
            push_cast
            linarith
          rw [this, abs_of_nonneg (by norm_num)]
        · intro _
          rcases Int.emod_two_eq ⌊q⌋ with h | h
          · exact absurd h hev
          · omega

theorem roundHalfEven_intCast (k : ℤ) : roundHalfEven (k : ℚ) = k := by
  rw [roundHalfEven, Int.floor_intCast]
  rw [if_pos (by norm_num)]

/-! ## Float model lemmas -/

theorem bitsAux_zero (fuel : Nat) : bitsAux fuel 0 = 0 := by
  cases fuel <;> rfl

theorem bitsAux_succ (f n : Nat) :
    bitsAux (f + 1) n = if n = 0 then 0 else bitsAux f (n / 2) + 1 := rfl

theorem bitsAux_spec (fuel : Nat) : ∀ n, n ≠ 0 → n ≤ fuel →
    0 < bitsAux fuel n ∧ 2 ^ (bitsAux fuel n - 1) ≤ n ∧
      n < 2 ^ bitsAux fuel n := by
  induction fuel with
  | zero => intro n hn hle; omega
  | succ f ih =>
    intro n hn hle
    rw [bitsAux_succ, if_neg hn]
    by_cases h1 : n / 2 = 0
    · have hn1 : n = 1 := by omega
      subst hn1
      rw [show (1 : Nat) / 2 = 0 from rfl, bitsAux_zero]
      norm_num
    · have hle2 : n / 2 ≤ f := by omega
      obtain ⟨hb0, hb1, hb2⟩ := ih (n / 2) h1 hle2
      set b := bitsAux f (n / 2) with hbdef
      refine ⟨by omega, ?_, ?_⟩
      · have hp : 2 ^ b = 2 ^ (b - 1) * 2 := by
          conv_lhs => rw [← Nat.sub_add_cancel hb0]
          rw [pow_succ]
        have hred : b + 1 - 1 = b := rfl
        rw [hred, hp]
        omega
      · have hp : 2 ^ (b + 1) = 2 ^ b * 2 := pow_succ 2 b
        omega

theorem bitLen_pos (n : Nat) (h : n ≠ 0) : 0 < bitLen n :=
  (bitsAux_spec n n h le_rfl).1

theorem bitLen_spec (n : Nat) (h : n ≠ 0) :
    2 ^ (bitLen n - 1) ≤ n ∧ n < 2 ^ bitLen n :=
  ⟨(bitsAux_spec n n h le_rfl).2.1, (bitsAux_spec n n h le_rfl).2.2⟩

theorem roundHalfEven_int_add (k : ℤ) (f : ℚ) (h0 : 0 ≤ f) (h1 : f < 1) :
    roundHalfEven ((k : ℚ) + f) =
      if f < 1/2 then k else if 1/2 < f then k + 1
      else if k % 2 = 0 then k else k + 1 := by
  have hfl : ⌊(k : ℚ) + f⌋ = k := by
    rw [add_comm, Int.floor_add_int,
      Int.floor_eq_zero_iff.mpr (Set.mem_Ico.mpr ⟨h0, h1⟩), zero_add]
  have hsub : (k : ℚ) + f - ((k : ℤ) : ℚ) = f := by ring
  rw [roundHalfEven, hfl, hsub]

theorem rdivEven_eq (a b : Nat) (hb : b ≠ 0) :
    (rdivEven a b : ℤ) = roundHalfEven ((a : ℚ) / (b : ℚ)) := by
  have hbpos : 0 < b := Nat.pos_of_ne_zero hb
  have hbQ : (0:ℚ) < (b:ℚ) := by exact_mod_cast hbpos
  have hx : (a : ℚ) / (b : ℚ) =
      (((a / b : Nat) : ℤ) : ℚ) + ((a % b : Nat) : ℚ) / (b : ℚ) := by
    have hN : ((a / b * b + a % b : Nat) : ℚ) = (a : ℚ) := by
      rw [Nat.div_add_mod']
    push_cast at hN
    rw [div_eq_iff hbQ.ne', add_mul, div_mul_cancel₀ _ hbQ.ne',
      Int.cast_natCast]
    linarith
  have hf0 : (0:ℚ) ≤ ((a % b : Nat) : ℚ) / (b : ℚ) :=
    div_nonneg (Nat.cast_nonneg _) hbQ.le
  have hf1 : ((a % b : Nat) : ℚ) / (b : ℚ) < 1 :=
    (div_lt_one hbQ).mpr (by exact_mod_cast Nat.mod_lt a hbpos)
  have hc1 : (((a % b : Nat) : ℚ) / (b : ℚ) < 1/2) ↔ (2 * (a % b) < b) := by
    rw [div_lt_iff hbQ]
    constructor
    · intro h
      have h2 : ((2 * (a % b) : Nat) : ℚ) < (b : ℚ) := by push_cast; linarith
      exact_mod_cast h2
    · intro h
      have h2 : ((2 * (a % b) : Nat) : ℚ) < (b : ℚ) := by exact_mod_cast h
      push_cast at h2
      linarith
  have hc2 : ((1:ℚ)/2 < ((a % b : Nat) : ℚ) / (b : ℚ)) ↔ (b < 2 * (a % b)) := by
    rw [lt_div_iff hbQ]
    constructor
    · intro h
      have h2 : (b : ℚ) < ((2 * (a % b) : Nat) : ℚ) := by push_cast; linarith
      exact_mod_cast h2
    · intro h
      have h2 : (b : ℚ) < ((2 * (a % b) : Nat) : ℚ) := by exact_mod_cast h
      push_cast at h2
      linarith
  have hc3 : ((((a / b : Nat)) : ℤ) % 2 = 0) ↔ ((a / b) % 2 = 0) := by omega
  rw [hx, roundHalfEven_int_add _ _ hf0 hf1]
  simp only [rdivEven, hc1, hc2, hc3]
  split_ifs <;> push_cast <;> ring

theorem fexp_le_aux (p q : Nat) (hp : p ≠ 0) (hq : q ≠ 0) :
    (2:ℚ) ^ ((bitLen p : ℤ) - (bitLen q : ℤ) - 1) ≤ (p:ℚ) / (q:ℚ) := by
  obtain ⟨hp1, hp2⟩ := bitLen_spec p hp
  obtain ⟨hq1, hq2⟩ := bitLen_spec q hq
  have hbp := bitLen_pos p hp
  have hqQ : (0:ℚ) < (q:ℚ) := by exact_mod_cast Nat.pos_of_ne_zero hq
  have hstep : (2:ℚ) ^ ((bitLen p : ℤ) - (bitLen q : ℤ) - 1) =
      (2:ℚ) ^ ((bitLen p - 1 : ℕ)) / (2:ℚ) ^ ((bitLen q : ℕ)) := by
    rw [eq_div_iff (by positivity : ((2:ℚ) ^ (bitLen q : ℕ)) ≠ 0)]
    rw [← zpow_natCast (2:ℚ) (bitLen q), ← zpow_natCast (2:ℚ) (bitLen p - 1),
        ← zpow_add₀ (by norm_num : (2:ℚ) ≠ 0)]
    congr 1
    omega
  rw [hstep, div_le_div_iff (by positivity) hqQ]
  exact_mod_cast Nat.mul_le_mul hp1 (le_of_lt hq2)

theorem fexp_le (p q : Nat) (hp : p ≠ 0) (hq : q ≠ 0) :
    (2:ℚ) ^ (fexp p q) ≤ (p:ℚ) / (q:ℚ) := by
  have hqQ : (0:ℚ) < (q:ℚ) := by exact_mod_cast Nat.pos_of_ne_zero hq
  simp only [fexp]
  split_ifs with h0 hc hc
  · set t := ((bitLen p : ℤ) - (bitLen q : ℤ)).toNat with ht
    have htz : ((bitLen p : ℤ) - (bitLen q : ℤ)) = (t : ℤ) := by omega
    rw [htz, zpow_natCast, le_div_iff hqQ]
    have hc2 : 2 ^ t * q ≤ p := by rw [Nat.mul_comm]; exact hc
    exact_mod_cast hc2
  · exact fexp_le_aux p q hp hq
  · set t := (-((bitLen p : ℤ) - (bitLen q : ℤ))).toNat with ht
    have htz : ((bitLen p : ℤ) - (bitLen q : ℤ)) = -(t : ℤ) := by omega
    rw [htz, zpow_neg, zpow_natCast, inv_eq_one_div,
      div_le_div_iff (by positivity) hqQ]
    have hc2 : (q : ℚ) ≤ (p : ℚ) * 2 ^ t := by exact_mod_cast hc
    linarith
  · exact fexp_le_aux p q hp hq

theorem fmant_eq (p q : Nat) (hp : p ≠ 0) (hq : q ≠ 0) :
    (fmant p q : ℤ) =
      roundHalfEven ((p:ℚ) / (q:ℚ) * (2:ℚ) ^ ((52:ℤ) - fexp p q)) := by
  simp only [fmant]
  split_ifs with h
  · rw [rdivEven_eq _ _ hq]
    congr 1
    set t := ((52:ℤ) - fexp p q).toNat with ht
    have htz : ((52:ℤ) - fexp p q) = (t : ℤ) := by omega
    rw [htz, zpow_natCast]
    push_cast
    ring
  · have hden : q * 2 ^ (fexp p q - 52).toNat ≠ 0 :=
      Nat.mul_ne_zero hq (pow_ne_zero _ (by norm_num))
    rw [rdivEven_eq _ _ hden]
    congr 1
    set t := (fexp p q - 52).toNat with ht
    have htz : ((52:ℤ) - fexp p q) = -(t : ℤ) := by omega
    rw [htz, zpow_neg, zpow_natCast]
    push_cast
    rw [div_mul_eq_div_div, div_eq_mul_inv]

theorem roundHalfEven_ge_one {x : ℚ} (h : 1 ≤ x) : 1 ≤ roundHalfEven x := by
  have hs := (roundHalfEven_spec x).1
  rw [abs_le] at hs
  by_contra hc
  push_neg at hc
  have h0 : roundHalfEven x ≤ 0 := by omega
  have h0Q : ((roundHalfEven x : ℤ) : ℚ) ≤ 0 := by exact_mod_cast h0
  linarith [hs.1]

theorem fmant_pos {p q : Nat} (hp : p ≠ 0) (hq : q ≠ 0) : 0 < fmant p q := by
  have hpow : (0:ℚ) < (2:ℚ) ^ ((52:ℤ) - fexp p q) := by positivity
  have hmul : (2:ℚ) ^ (fexp p q) * (2:ℚ) ^ ((52:ℤ) - fexp p q) =
      (2:ℚ) ^ ((52:ℤ)) := by
    rw [← zpow_add₀ (by norm_num : (2:ℚ) ≠ 0)]
    congr 1
    ring
  have h52 : (1:ℚ) ≤ (2:ℚ) ^ ((52:ℤ)) := by
    rw [show ((52:ℤ)) = ((52:ℕ) : ℤ) by norm_num, zpow_natCast]
    norm_num
  have hx : (1:ℚ) ≤ (p:ℚ) / (q:ℚ) * (2:ℚ) ^ ((52:ℤ) - fexp p q) := by
    have hstep := mul_le_mul_of_nonneg_right (fexp_le p q hp hq) hpow.le
    calc (1:ℚ) ≤ (2:ℚ) ^ ((52:ℤ)) := h52
      _ = (2:ℚ) ^ (fexp p q) * (2:ℚ) ^ ((52:ℤ) - fexp p q) := hmul.symm
      _ ≤ (p:ℚ) / (q:ℚ) * (2:ℚ) ^ ((52:ℤ) - fexp p q) := hstep
  have h1 : (1:ℤ) ≤ (fmant p q : ℤ) := by
    rw [fmant_eq p q hp hq]
    exact roundHalfEven_ge_one hx
  omega

theorem floatOfRatPos_eq (p q : Nat) :
    floatOfRatPos p q = if 0 ≤ fexp p q - 52
      then (fmant p q * 2 ^ (fexp p q - 52).toNat, 1)
      else (fmant p q, 2 ^ (52 - fexp p q).toNat) := rfl

theorem floatOfRatPos_snd_pos (p q : Nat) : 0 < (floatOfRatPos p q).2 := by
  rw [floatOfRatPos_eq]
  split_ifs
  · exact Nat.one_pos
  · exact pow_pos (by norm_num) _

theorem floatOfRatPos_fst_pos {p q : Nat} (hp : p ≠ 0) (hq : q ≠ 0) :
    0 < (floatOfRatPos p q).1 := by
  rw [floatOfRatPos_eq]
  split_ifs
  · exact Nat.mul_pos (fmant_pos hp hq) (pow_pos (by norm_num) _)
  · exact fmant_pos hp hq

theorem val_floatOfRatPos (p q : Nat) :
    valQ (floatOfRatPos p q) =
      (fmant p q : ℚ) * (2:ℚ) ^ (fexp p q - 52 : ℤ) := by
  rw [valQ, floatOfRatPos_eq]
  split_ifs with h
  · show ((fmant p q * 2 ^ (fexp p q - 52).toNat : ℕ) : ℚ) / ((1 : ℕ) : ℚ) =
        (fmant p q : ℚ) * (2:ℚ) ^ (fexp p q - 52 : ℤ)
    set t := (fexp p q - 52).toNat with ht
    have htz : (fexp p q - 52 : ℤ) = (t : ℤ) := by omega
    rw [htz, zpow_natCast]
    push_cast
    ring
  · show ((fmant p q : ℕ) : ℚ) / ((2 ^ (52 - fexp p q).toNat : ℕ) : ℚ) =
        (fmant p q : ℚ) * (2:ℚ) ^ (fexp p q - 52 : ℤ)
    set t := ((52:ℤ) - fexp p q).toNat with ht
    have htz : (fexp p q - 52 : ℤ) = -(t : ℤ) := by omega
    rw [htz, zpow_neg, zpow_natCast]
    push_cast
    rw [div_eq_mul_inv]

theorem float_err (p q : Nat) (hp : p ≠ 0) (hq : q ≠ 0) :
    |valQ (floatOfRatPos p q) - (p:ℚ) / (q:ℚ)| ≤
      (p:ℚ) / (q:ℚ) * (1/2^53) := by
  have hval := val_floatOfRatPos p q
  have hm := fmant_eq p q hp hq
  have hround :=
    (roundHalfEven_spec ((p:ℚ) / (q:ℚ) * (2:ℚ) ^ ((52:ℤ) - fexp p q))).1
  rw [← hm] at hround
  have hpow : (0:ℚ) < (2:ℚ) ^ (fexp p q - 52 : ℤ) := by positivity
  have hcan : (2:ℚ) ^ ((52:ℤ) - fexp p q) * (2:ℚ) ^ (fexp p q - 52 : ℤ) =
      1 := by
    rw [← zpow_add₀ (by norm_num : (2:ℚ) ≠ 0)]
    rw [show ((52:ℤ) - fexp p q) + (fexp p q - 52) = (0:ℤ) by ring]
    exact zpow_zero 2
  have key : valQ (floatOfRatPos p q) - (p:ℚ) / (q:ℚ) =
      (((fmant p q : ℤ) : ℚ) -
          (p:ℚ) / (q:ℚ) * (2:ℚ) ^ ((52:ℤ) - fexp p q)) *
        (2:ℚ) ^ (fexp p q - 52 : ℤ) := by
    rw [hval, sub_mul, mul_assoc, hcan, mul_one]
    push_cast
    ring
  rw [key, abs_mul, abs_of_pos hpow]
  have h1 : |((fmant p q : ℤ) : ℚ) -
        (p:ℚ) / (q:ℚ) * (2:ℚ) ^ ((52:ℤ) - fexp p q)| *
      (2:ℚ) ^ (fexp p q - 52 : ℤ) ≤ (1/2) * (2:ℚ) ^ (fexp p q - 52 : ℤ) :=
    mul_le_mul_of_nonneg_right hround hpow.le
  have h2 : (1/2 : ℚ) * (2:ℚ) ^ (fexp p q - 52 : ℤ) =
      (2:ℚ) ^ (fexp p q - 53 : ℤ) := by
    rw [show (fexp p q - 53 : ℤ) = (fexp p q - 52) + (-1) by ring,
      zpow_add₀ (by norm_num : (2:ℚ) ≠ 0), zpow_neg_one]
    ring
  have h3 : (2:ℚ) ^ (fexp p q - 53 : ℤ) ≤
      (p:ℚ) / (q:ℚ) * (2:ℚ) ^ (-53 : ℤ) := by
    have hle := fexp_le p q hp hq
    have hp53 : (0:ℚ) < (2:ℚ) ^ (-53 : ℤ) := by positivity
    calc (2:ℚ) ^ (fexp p q - 53 : ℤ)
        = (2:ℚ) ^ (fexp p q) * (2:ℚ) ^ (-53 : ℤ) := by
          rw [show (fexp p q - 53 : ℤ) = fexp p q + (-53) by ring,
            zpow_add₀ (by norm_num : (2:ℚ) ≠ 0)]
      _ ≤ (p:ℚ) / (q:ℚ) * (2:ℚ) ^ (-53 : ℤ) :=
          mul_le_mul_of_nonneg_right hle hp53.le
  have h4 : (2:ℚ) ^ (-53 : ℤ) = 1/2^53 := by
    rw [show ((-53:ℤ)) = -((53:ℕ) : ℤ) by norm_num, zpow_neg, zpow_natCast,
      inv_eq_one_div]
  rw [h2] at h1
  rw [h4] at h3
  linarith

theorem rdivEven_exact (n m : Nat) (h : n ≠ 0) : rdivEven (n * m) n = m := by
  have hQ : (n : ℚ) ≠ 0 := by exact_mod_cast h
  have hx : ((n * m : Nat) : ℚ) / (n : ℚ) = ((m : ℤ) : ℚ) := by
    push_cast
    exact mul_div_cancel_left₀ _ hQ
  have heq := rdivEven_eq (n * m) n h
  rw [hx, roundHalfEven_intCast] at heq
  exact_mod_cast heq

theorem fexp_self {n : Nat} (h : n ≠ 0) : fexp n n = 0 := by
  simp [fexp]

theorem fmant_self {n : Nat} (h : n ≠ 0) : fmant n n = 2 ^ 52 := by
  have h1 : fmant n n = rdivEven (n * 2 ^ ((52:ℤ) - 0).toNat) n := by
    simp only [fmant, fexp_self h]
    rw [if_pos (by norm_num)]
  rw [h1, show ((52:ℤ) - 0).toNat = 52 from by decide]
  exact rdivEven_exact _ _ h

theorem floatOfRatPos_self {n : Nat} (h : n ≠ 0) :
    floatOfRatPos n n = (2 ^ 52, 2 ^ 52) := by
  rw [floatOfRatPos_eq, fexp_self h, fmant_self h]
  rw [if_neg (by norm_num)]
  rw [show ((52:ℤ) - 0).toNat = 52 from by decide]

/-! ## Trimming lemmas -/

theorem dropWhile_head?_not (p : Char → Bool) (l : List Char) :
    ∀ c, (l.dropWhile p).head? = some c → p c = false := by
  induction l with
  | nil => intro c h; simp at h
  | cons a as ih =>
    intro c h
    rw [List.dropWhile_cons] at h
    by_cases hp : p a
    · rw [if_pos hp] at h; exact ih c h
    · rw [if_neg hp] at h
      rw [List.head?_cons, Option.some_inj] at h
      subst h
      exact Bool.eq_false_iff.mpr hp

theorem dropWhile_getLast? (p : Char → Bool) (x : List Char)
    (h : x.dropWhile p ≠ []) : (x.dropWhile p).getLast? = x.getLast? := by
  induction x with
  | nil => simp at h
  | cons a as ih =>
    rw [List.dropWhile_cons]
    rw [List.dropWhile_cons] at h
    by_cases hp : p a
    · rw [if_pos hp]
      rw [if_pos hp] at h
      have has : as ≠ [] := by
        intro he
        rw [he] at h
        exact h rfl
      cases as with
      | nil => exact absurd rfl has
      | cons b bs => rw [List.getLast?_cons_cons]; exact ih h
    · rw [if_neg hp]

theorem pyStrip_trimmed (s : String) : strippedStr (pyStrip s) := by
  rw [pyStrip, strippedStr]
  constructor
  · intro c hc
    have hd : (String.mk (((s.data.dropWhile isPySpace).reverse.dropWhile
        isPySpace).reverse)).data =
        ((s.data.dropWhile isPySpace).reverse.dropWhile isPySpace).reverse := rfl
    rw [hd, List.head?_reverse] at hc
    have hne : (s.data.dropWhile isPySpace).reverse.dropWhile isPySpace ≠ [] := by
      intro he
      rw [he] at hc
      simp at hc
    rw [dropWhile_getLast? isPySpace _ hne, List.getLast?_reverse] at hc
    exact dropWhile_head?_not isPySpace s.data c hc
  · intro c hc
    have hd : (String.mk (((s.data.dropWhile isPySpace).reverse.dropWhile
        isPySpace).reverse)).data =
        ((s.data.dropWhile isPySpace).reverse.dropWhile isPySpace).reverse := rfl
    rw [hd, List.getLast?_reverse] at hc
    exact dropWhile_head?_not isPySpace _ c hc

/-! ## Digit-string lemmas -/

theorem foldl_digit_shift (l : List Char) : ∀ a : Nat,
    l.foldl (fun acc c => acc * 10 + (c.toNat - '0'.toNat)) a =
      a * 10 ^ l.length +
        l.foldl (fun acc c => acc * 10 + (c.toNat - '0'.toNat)) 0 := by
  induction l with
  | nil => intro a; simp
  | cons c cs ih =>
    intro a
    rw [List.foldl_cons, List.foldl_cons, ih (a * 10 + (c.toNat - '0'.toNat)),
      ih (0 * 10 + (c.toNat - '0'.toNat))]
    simp [List.length_cons, pow_succ]
    ring

theorem digit_le (c : Char) (h : c.isDigit = true) : c.toNat - '0'.toNat ≤ 9 := by
  simp [Char.isDigit] at h
  have h2 : c.toNat ≤ 57 := h.2
  have h0 : '0'.toNat = 48 := rfl
  omega

theorem foldl_digits_lt (l : List Char)
    (hall : ∀ x ∈ l, x.isDigit = true) :
    l.foldl (fun acc c => acc * 10 + (c.toNat - '0'.toNat)) 0 < 10 ^ l.length := by
  induction l with
  | nil => simp
  | cons c cs ih =>
    rw [List.foldl_cons, foldl_digit_shift]
    have hd : c.toNat - '0'.toNat ≤ 9 :=
      digit_le c (hall c (List.mem_cons_self _ _))
    have hcs : cs.foldl (fun acc c => acc * 10 + (c.toNat - '0'.toNat)) 0 <
        10 ^ cs.length := ih (fun x hx => hall x (List.mem_cons_of_mem _ hx))
    rw [List.length_cons, pow_succ]
    have h10 : (0 * 10 + (c.toNat - '0'.toNat)) * 10 ^ cs.length ≤
        9 * 10 ^ cs.length := by
      apply Nat.mul_le_mul_right
      omega
    have h9 : 9 * 10 ^ cs.length + 10 ^ cs.length = 10 ^ cs.length * 10 := by
      ring
    omega

theorem parseNum_lt (s : String) (v : Nat) (h : parseNum s = some v) :
    v < 10 ^ s.length := by
  rw [parseNum] at h
  split at h
  · rw [Option.some_inj] at h
    subst h
    rename_i hc
    have hall := hc.2
    rw [List.all_eq_true] at hall
    exact foldl_digits_lt s.data hall
  · cases h

/-! ## Field bounds of the timestamp parser -/

theorem parseMonthLike_bounds {s : String} {v : Nat}
    (h : parseMonthLike s = some v) : 1 ≤ v ∧ v ≤ 12 := by
  rw [parseMonthLike] at h
  simp only [bind, Option.bind_eq_some] at h
  obtain ⟨w, _, hif⟩ := h
  split at hif
  · rw [Option.some_inj] at hif
    subst hif
    rename_i hcond
    exact ⟨hcond.1, hcond.2.1⟩
  · cases hif

theorem parseDayField_bounds {s : String} {v : Nat}
    (h : parseDayField s = some v) : 1 ≤ v ∧ v ≤ 31 := by
  rw [parseDayField] at h
  simp only [bind, Option.bind_eq_some] at h
  obtain ⟨w, _, hif⟩ := h
  split at hif
  · rw [Option.some_inj] at hif
    subst hif
    rename_i hcond
    exact ⟨hcond.1, hcond.2.1⟩
  · cases hif

theorem parseYearField_bounds {s : String} {v : Nat}
    (h : parseYearField s = some v) : 1 ≤ v := by
  rw [parseYearField] at h
  simp only [bind, Option.bind_eq_some] at h
  obtain ⟨w, _, hif⟩ := h
  split at hif
  · rw [Option.some_inj] at hif
    subst hif
    rename_i hcond
    exact hcond.1
  · cases hif

theorem parseHour24_bounds {s : String} {v : Nat}
    (h : parseHour24 s = some v) : v ≤ 23 := by
  rw [parseHour24] at h
  simp only [bind, Option.bind_eq_some] at h
  obtain ⟨w, _, hif⟩ := h
  split at hif
  · rw [Option.some_inj] at hif
    subst hif
    rename_i hcond
    exact hcond.1
  · cases hif

theorem parseMinuteField_bounds {s : String} {v : Nat}
    (h : parseMinuteField s = some v) : v ≤ 59 := by
  rw [parseMinuteField] at h
  simp only [bind, Option.bind_eq_some] at h
  obtain ⟨w, hw, hif⟩ := h
  split at hif
  · rw [Option.some_inj] at hif
    subst hif
    rename_i hcond
    rcases hcond with h1 | h2
    · have := parseNum_lt s w hw
      rw [h1] at this
      simp at this
      omega
    · exact h2.2
  · cases hif

/-- Success of `parseTimestamp` yields a calendar-valid timestamp: the
field validation of `strptime` and the `datetime` constructor compose. -/
theorem parseTimestamp_valid {d t : String} {a : Option String}
    {dt : DateTime} (h : parseTimestamp d t a = some dt) : validDT dt := by
  rw [parseTimestamp] at h
  split at h
  case h_2 => cases h
  split at h
  all_goals (split at h; rotate_left; · cases h)
  all_goals (
    simp only [bind, Option.bind_eq_some] at h
    obtain ⟨month, hmonth, day, hdayp, year, hyearp, minute, hminp, h⟩ := h
    have hm := parseMonthLike_bounds hmonth
    have hd1 := (parseDayField_bounds hdayp).1
    have hy1 := parseYearField_bounds hyearp
    have hmin1 := parseMinuteField_bounds hminp
    rcases a with _ | am
    all_goals simp only [Option.some_bind, Option.none_bind,
      Option.bind_eq_some] at h)
  all_goals first
    | (obtain ⟨hour, hhp, h⟩ := h
       have hh := parseHour24_bounds hhp
       split at h
       rotate_left
       · cases h
       rename_i hdle
       rw [Option.some_inj] at h
       subst h
       exact ⟨hy1, hm.1, hm.2, hd1, hdle, hh, hmin1⟩)
    | (obtain ⟨hv, hhv, h⟩ := h
       have h12 := (parseMonthLike_bounds hhv).2
       split at h
       · split at h
         rotate_left
         · cases h
         rename_i hdle
         rw [Option.some_inj] at h
         subst h
         refine ⟨hy1, hm.1, hm.2, hd1, hdle, ?_, hmin1⟩
         show hv % 12 ≤ 23
         have hlt : hv % 12 < 12 := Nat.mod_lt _ (by norm_num)
         omega
       · split at h
         · split at h
           rotate_left
           · cases h
           rename_i hdle
           rw [Option.some_inj] at h
           subst h
           refine ⟨hy1, hm.1, hm.2, hd1, hdle, ?_, hmin1⟩
           show hv % 12 + 12 ≤ 23
           have hlt : hv % 12 < 12 := Nat.mod_lt _ (by norm_num)
           omega
         · cases h)

/-! ## Parse loop invariants -/

theorem matchHeader_empty : matchHeader "" = none := rfl

theorem headerInfo_empty : headerInfo "" = none := rfl

theorem parseChatAux_nil (cur : Option Message) :
    parseChatAux cur [] = .ok cur.toList := rfl

theorem parseChatAux_cons (cur : Option Message) (l : String)
    (ls : List String) :
    parseChatAux cur (l :: ls) =
      if l = "" then parseChatAux cur ls
      else
        match matchHeader l with
        | some g =>
          match parseTimestamp g.date g.time g.ampm with
          | some ts =>
            (parseChatAux (some { timestamp := ts, sender := pyStrip g.sender,
                                  text := g.text }) ls).map (cur.toList ++ ·)
          | none => .error .valueError
        | none =>
          match cur with
          | some msg =>
            parseChatAux (some { msg with text := msg.text ++ "\n" ++ l }) ls
          | none => parseChatAux none ls := rfl

theorem parseChatAux_ok (ls : List String) : ∀ cur msgs,
    parseChatAux cur ls = .ok msgs →
    msgs.map msgInfo = cur.toList.map msgInfo ++ ls.filterMap headerInfo ∧
    msgs.length = cur.toList.length +
      ls.countP (fun l => (matchHeader l).isSome) := by
  induction ls with
  | nil =>
    intro cur msgs h
    rw [parseChatAux_nil] at h
    have he : cur.toList = msgs := by
      cases h
      rfl
    subst he
    simp
  | cons l ls ih =>
    intro cur msgs h
    rw [parseChatAux_cons] at h
    by_cases hl : l = ""
    · rw [if_pos hl] at h
      subst hl
      obtain ⟨h1, h2⟩ := ih cur msgs h
      refine ⟨?_, ?_⟩
      · rw [h1, List.filterMap_cons, headerInfo_empty]
      · rw [h2, List.countP_cons, matchHeader_empty]
        simp
    · rw [if_neg hl] at h
      cases hm : matchHeader l with
      | some g =>
        simp only [hm] at h
        cases hts : parseTimestamp g.date g.time g.ampm with
        | some ts =>
          simp only [hts] at h
          cases hrec : parseChatAux
              (some { timestamp := ts, sender := pyStrip g.sender,
                      text := g.text }) ls with
          | error e =>
            rw [hrec] at h
            simp [Except.map] at h
          | ok msgs' =>
            rw [hrec] at h
            simp only [Except.map] at h
            have he : cur.toList ++ msgs' = msgs := by
              cases h
              rfl
            subst he
            obtain ⟨h1, h2⟩ := ih _ msgs' hrec
            have hinfo : headerInfo l = some (ts, pyStrip g.sender) := by
              simp [headerInfo, hm, hts]
            refine ⟨?_, ?_⟩
            · rw [List.map_append, h1, List.filterMap_cons, hinfo]
              simp [msgInfo]
            · rw [List.length_append, h2, List.countP_cons, hm]
              simp only [Option.isSome_some, if_pos]
              simp
              omega
        | none =>
          simp only [hts] at h
          cases h
      | none =>
        simp only [hm] at h
        cases cur with
        | some msg =>
          obtain ⟨h1, h2⟩ := ih _ msgs h
          refine ⟨?_, ?_⟩
          · rw [h1, List.filterMap_cons, headerInfo, hm]
            simp [msgInfo]
          · rw [h2, List.countP_cons, hm]
            simp
        | none =>
          obtain ⟨h1, h2⟩ := ih none msgs h
          refine ⟨?_, ?_⟩
          · rw [h1, List.filterMap_cons, headerInfo, hm]
            simp
          · rw [h2, List.countP_cons, hm]
            simp

theorem parseChatAux_ok_valid (ls : List String) : ∀ cur msgs,
    parseChatAux cur ls = .ok msgs →
    (∀ m ∈ cur.toList, validDT m.timestamp ∧ strippedStr m.sender) →
    ∀ m ∈ msgs, validDT m.timestamp ∧ strippedStr m.sender := by
  induction ls with
  | nil =>
    intro cur msgs h hcur
    rw [parseChatAux_nil] at h
    have he : cur.toList = msgs := by
      cases h
      rfl
    subst he
    exact hcur
  | cons l ls ih =>
    intro cur msgs h hcur
    rw [parseChatAux_cons] at h
    by_cases hl : l = ""
    · rw [if_pos hl] at h
      exact ih cur msgs h hcur
    · rw [if_neg hl] at h
      cases hm : matchHeader l with
      | some g =>
        simp only [hm] at h
        cases hts : parseTimestamp g.date g.time g.ampm with
        | some ts =>
          simp only [hts] at h
          cases hrec : parseChatAux
              (some { timestamp := ts, sender := pyStrip g.sender,
                      text := g.text }) ls with
          | error e =>
            rw [hrec] at h
            simp [Except.map] at h
          | ok msgs' =>
            rw [hrec] at h
            simp only [Except.map] at h
            have he : cur.toList ++ msgs' = msgs := by
              cases h
              rfl
            subst he
            intro m hm'
            rcases List.mem_append.mp hm' with hma | hmb
            · exact hcur m hma
            · refine ih _ msgs' hrec ?_ m hmb
              intro m' hm''
              have hme : m' = { timestamp := ts, sender := pyStrip g.sender, text := g.text } := by
                simpa using hm''
              subst hme
              exact ⟨parseTimestamp_valid hts, pyStrip_trimmed g.sender⟩
        | none =>
          simp only [hts] at h
          cases h
      | none =>
        simp only [hm] at h
        cases cur with
        | some msg =>
          refine ih _ msgs h ?_
          intro m' hm''
          have : m' = { msg with text := msg.text ++ "\n" ++ l } := by
            simpa using hm''
          subst this
          have := hcur msg (by simp)
          exact this
        | none =>
          exact ih none msgs h (by simp)

theorem parseChatAux_error_iff (ls : List String) : ∀ cur,
    parseChatAux cur ls = .error .valueError ↔
      ∃ l ∈ ls, ∃ g, matchHeader l = some g ∧
        parseTimestamp g.date g.time g.ampm = none := by
  induction ls with
  | nil =>
    intro cur
    rw [parseChatAux_nil]
    simp
  | cons l ls ih =>
    intro cur
    rw [parseChatAux_cons]
    by_cases hl : l = ""
    · rw [if_pos hl]
      subst hl
      rw [ih cur]
      constructor
      · rintro ⟨l', hl', hg⟩
        exact ⟨l', List.mem_cons_of_mem _ hl', hg⟩
      · rintro ⟨l', hl', g, hg, hts⟩
        rcases List.mem_cons.mp hl' with rfl | hl''
        · rw [matchHeader_empty] at hg
          cases hg
        · exact ⟨l', hl'', g, hg, hts⟩
    · rw [if_neg hl]
      cases hm : matchHeader l with
      | some g =>
        simp only [hm]
        cases hts : parseTimestamp g.date g.time g.ampm with
        | some ts =>
          simp only [hts]
          constructor
          · intro h
            have herr : parseChatAux
                (some { timestamp := ts, sender := pyStrip g.sender,
                        text := g.text }) ls = .error .valueError := by
              cases hrec : parseChatAux
                  (some { timestamp := ts, sender := pyStrip g.sender,
                          text := g.text }) ls with
              | error e =>
                cases e
                rfl
              | ok msgs' =>
                rw [hrec] at h
                simp [Except.map] at h
            obtain ⟨l', hl', hg⟩ := (ih _).mp herr
            exact ⟨l', List.mem_cons_of_mem _ hl', hg⟩
          · rintro ⟨l', hl', g', hg, hts'⟩
            rcases List.mem_cons.mp hl' with rfl | hl''
            · rw [hm, Option.some_inj] at hg
              subst hg
              rw [hts] at hts'
              cases hts'
            · have herr := (ih (some { timestamp := ts, sender := pyStrip g.sender, text := g.text })).mpr ⟨l', hl'', g', hg, hts'⟩
              rw [herr]
              rfl
        | none =>
          simp only [hts]
          constructor
          · intro _
            exact ⟨l, List.mem_cons_self _ _, g, hm, hts⟩
          · intro _
            trivial
      | none =>
        simp only [hm]
        have hstep : ∀ cur' : Option Message,
            parseChatAux cur' ls = .error .valueError ↔
              ∃ l' ∈ l :: ls, ∃ g, matchHeader l' = some g ∧
                parseTimestamp g.date g.time g.ampm = none := by
          intro cur'
          rw [ih cur']
          constructor
          · rintro ⟨l', hl', hg⟩
            exact ⟨l', List.mem_cons_of_mem _ hl', hg⟩
          · rintro ⟨l', hl', g, hg, hts⟩
            rcases List.mem_cons.mp hl' with rfl | hl''
            · rw [hm] at hg
              cases hg
            · exact ⟨l', hl'', g, hg, hts⟩
        cases cur with
        | some msg => exact hstep _
        | none => exact hstep _

/-! ## Full characterisation of a successful timestamp parse -/

theorem parseMonthLike_num {s : String} {v : Nat}
    (h : parseMonthLike s = some v) : parseNum s = some v ∧ 1 ≤ v ∧ v ≤ 12 := by
  rw [parseMonthLike] at h
  simp only [bind, Option.bind_eq_some] at h
  obtain ⟨w, hw, hif⟩ := h
  split at hif
  · rw [Option.some_inj] at hif
    subst hif
    rename_i hcond
    exact ⟨hw, hcond.1, hcond.2.1⟩
  · cases hif

theorem parseHour24_num {s : String} {v : Nat}
    (h : parseHour24 s = some v) : parseNum s = some v := by
  rw [parseHour24] at h
  simp only [bind, Option.bind_eq_some] at h
  obtain ⟨w, hw, hif⟩ := h
  split at hif
  · rw [Option.some_inj] at hif
    subst hif
    exact hw
  · cases hif

theorem parseYearField_num {s : String} {v : Nat}
    (h : parseYearField s = some v) : parseNum s = some v := by
  rw [parseYearField] at h
  simp only [bind, Option.bind_eq_some] at h
  obtain ⟨w, hw, hif⟩ := h
  split at hif
  · rw [Option.some_inj] at hif
    subst hif
    exact hw
  · cases hif

theorem parseTimestamp_eq {d t : String} {a : Option String} {dt : DateTime}
    (h : parseTimestamp d t a = some dt) :
    ∃ ms ds ys hs mins, pySplit d '/' = [ms, ds, ys] ∧
      pySplit t ':' = [hs, mins] ∧
      parseMonthLike ms = some dt.month ∧
      parseDayField ds = some dt.day ∧
      parseYearField (if ys.length = 2 then "20" ++ ys else ys) =
        some dt.year ∧
      parseMinuteField mins = some dt.minute ∧
      ((a = none ∧ parseHour24 hs = some dt.hour) ∨
       (∃ am hv, a = some am ∧ parseMonthLike hs = some hv ∧
         ((pyLower am = "am" ∧ dt.hour = hv % 12) ∨
          (pyLower am ≠ "am" ∧ pyLower am = "pm" ∧
            dt.hour = hv % 12 + 12)))) := by
  rw [parseTimestamp] at h
  split at h
  case h_2 => cases h
  rename_i ms ds ys hsplitd
  split at h
  all_goals (split at h; rotate_left; · cases h)
  all_goals rename_i hs mins hsplitt
  all_goals (
    simp only [bind, Option.bind_eq_some] at h
    obtain ⟨month, hmonth, day, hdayp, year, hyearp, minute, hminp, h⟩ := h
    refine ⟨ms, ds, ys, hs, mins, hsplitd, hsplitt, ?_⟩
    rcases a with _ | am
    all_goals simp only [Option.some_bind, Option.none_bind,
      Option.bind_eq_some] at h)
  all_goals first
    | (obtain ⟨hour, hhp, h⟩ := h
       split at h
       rotate_left
       · cases h
       rw [Option.some_inj] at h
       subst h
       refine ⟨hmonth, hdayp, ?_, hminp, Or.inl ⟨rfl, hhp⟩⟩
       first
         | (rw [if_pos (by assumption)]; exact hyearp)
         | (rw [if_neg (by assumption)]; exact hyearp))
    | (obtain ⟨hv, hhv, h⟩ := h
       split at h
       · split at h
         rotate_left
         · cases h
         rw [Option.some_inj] at h
         subst h
         refine ⟨hmonth, hdayp, ?_, hminp,
           Or.inr ⟨am, hv, rfl, hhv, Or.inl ⟨by assumption, rfl⟩⟩⟩
         first
           | (rw [if_pos (by assumption)]; exact hyearp)
           | (rw [if_neg (by assumption)]; exact hyearp)
       · split at h
         · split at h
           rotate_left
           · cases h
           rw [Option.some_inj] at h
           subst h
           refine ⟨hmonth, hdayp, ?_, hminp,
             Or.inr ⟨am, hv, rfl, hhv,
               Or.inr ⟨by assumption, by assumption, rfl⟩⟩⟩
           first
             | (rw [if_pos (by assumption)]; exact hyearp)
             | (rw [if_neg (by assumption)]; exact hyearp)
         · cases h)

theorem parseNum_two_prefix {ys : String} {v : Nat} (h2 : ys.length = 2)
    (h : parseNum ("20" ++ ys) = some v) :
    ∃ w, parseNum ys = some w ∧ v = 2000 + w := by
  have hdata : ("20" ++ ys).data = '2' :: '0' :: ys.data := by
    rw [String.data_append]
    rfl
  rw [parseNum] at h
  split at h
  rotate_left
  · cases h
  rw [Option.some_inj] at h
  rename_i hc
  obtain ⟨-, hall⟩ := hc
  rw [hdata, List.all_cons, List.all_cons, Bool.and_eq_true,
    Bool.and_eq_true] at hall
  have hysne : ys.data ≠ [] := by
    intro he
    have : ys.length = 0 := by
      rw [show ys.length = ys.data.length from rfl, he]
      rfl
    omega
  rw [parseNum, if_pos ⟨hysne, hall.2.2⟩]
  refine ⟨_, rfl, ?_⟩
  rw [hdata] at h
  rw [List.foldl_cons, List.foldl_cons] at h
  rw [foldl_digit_shift] at h
  have hlen : ys.data.length = 2 := h2
  rw [hlen] at h
  have h2n : '2'.toNat = 50 := rfl
  have h0n : '0'.toNat = 48 := rfl
  omega

/-- C9: a matched header's date and time parse to a single timestamp; a
2-digit year is read as `2000 + year`; a present AM/PM marker governs
12-hour interpretation (`12:00 AM` is midnight, `12:00 PM` is noon); an
absent marker parses the time field as 24-hour. -/
theorem timestamp_year_ampm_semantics (d t : String) (a : Option String)
    (dt : DateTime) (h : parseTimestamp d t a = some dt) :
    (∀ ms ds ys, pySplit d '/' = [ms, ds, ys] → ys.length = 2 →
      ∃ yv, parseNum ys = some yv ∧ dt.year = 2000 + yv) ∧
    (∀ hs mins, pySplit t ':' = [hs, mins] →
      ∃ hv, parseNum hs = some hv ∧
        (a = none → dt.hour = hv) ∧
        (a = some "AM" → dt.hour = if hv = 12 then 0 else hv) ∧
        (a = some "PM" → dt.hour = if hv = 12 then 12 else hv + 12)) := by
  obtain ⟨ms, ds, ys, hs, mins, hsd, hst, hm, hd, hy, hmin, hhour⟩ :=
    parseTimestamp_eq h
  constructor
  · intro ms' ds' ys' hsd' hlen
    rw [hsd] at hsd'
    simp only [List.cons.injEq, and_true] at hsd'
    obtain ⟨rfl, rfl, rfl⟩ := hsd'
    rw [if_pos hlen] at hy
    exact parseNum_two_prefix hlen (parseYearField_num hy)
  · intro hs' mins' hst'
    rw [hst] at hst'
    simp only [List.cons.injEq, and_true] at hst'
    obtain ⟨rfl, rfl⟩ := hst'
    rcases hhour with ⟨ha, hh24⟩ | ⟨am, hv, ha, hhv, hcase⟩
    · subst ha
      refine ⟨dt.hour, parseHour24_num hh24, fun _ => rfl, ?_, ?_⟩
      · intro habs; cases habs
      · intro habs; cases habs
    · subst ha
      obtain ⟨hvnum, hv1, hv12⟩ := parseMonthLike_num hhv
      refine ⟨hv, hvnum, ?_, ?_, ?_⟩
      · intro habs; cases habs
      · intro hAM
        rw [Option.some_inj] at hAM
        subst hAM
        rcases hcase with ⟨-, hh⟩ | ⟨hne, -, -⟩
        · rw [hh]
          by_cases h12 : hv = 12
          · subst h12
            rw [if_pos rfl]
          · rw [if_neg h12]
            omega
        · exact absurd (by decide : pyLower "AM" = "am") hne
      · intro hPM
        rw [Option.some_inj] at hPM
        subst hPM
        rcases hcase with ⟨heq, -⟩ | ⟨-, -, hh⟩
        · exact absurd heq (by decide)
        · rw [hh]
          by_cases h12 : hv = 12
          · subst h12
            rw [if_pos rfl]
          · rw [if_neg h12]
            omega

/-- Witness for C9 at `"5/1/23, 12:00 AM"`: the year 2023 is
`2000 + 23` and hour 12 AM is midnight. -/
theorem timestamp_year_ampm_semantics_witness :
    (∃ yv, parseNum "23" = some yv ∧
      (DateTime.mk 2023 5 1 0 0).year = 2000 + yv) ∧
    (∃ hv, parseNum "12" = some hv ∧
      ((some "AM" : Option String) = none →
        (DateTime.mk 2023 5 1 0 0).hour = hv) ∧
      ((some "AM" : Option String) = some "AM" →
        (DateTime.mk 2023 5 1 0 0).hour = if hv = 12 then 0 else hv) ∧
      ((some "AM" : Option String) = some "PM" →
        (DateTime.mk 2023 5 1 0 0).hour = if hv = 12 then 12 else hv + 12)) := by
  have h := timestamp_year_ampm_semantics "5/1/23" "12:00" (some "AM")
    (DateTime.mk 2023 5 1 0 0) (by decide)
  exact ⟨h.1 "5" "1" "23" (by decide) (by decide),
    h.2 "12" "00" (by decide)⟩

/-- C5: a successful parse returns exactly one Message Record per line
matching the header pattern, and the records carry the header data (and
hence appear) in the order of those lines in the source. -/
theorem parse_count_order (lines : List String) (msgs : List Message)
    (h : parse_chat lines = .ok msgs) :
    msgs.map msgInfo = lines.filterMap headerInfo ∧
    msgs.length = lines.countP (fun l => (matchHeader l).isSome) := by
  obtain ⟨h1, h2⟩ := parseChatAux_ok lines none msgs h
  simp only [Option.toList_none, List.map_nil, List.nil_append,
    List.length_nil, Nat.zero_add] at h1 h2
  exact ⟨h1, h2⟩

/-- Witness for C5 on `demoLines`: two of the three lines match the
header pattern and yield the two records of `demoParsed` in order. -/
theorem parse_count_order_witness :
    demoParsed.map msgInfo = demoLines.filterMap headerInfo ∧
    demoParsed.length =
      demoLines.countP (fun l => (matchHeader l).isSome) :=
  parse_count_order demoLines demoParsed (by decide)

/-- C4 (amended): every Message Record produced by `parse_chat` has a
calendar-valid timestamp and a whitespace-trimmed sender; the sender can
nonetheless be the empty string, when the header's sender field consists
of whitespace only. -/
theorem parse_records_valid_trimmed (lines : List String)
    (msgs : List Message) (h : parse_chat lines = .ok msgs) :
    ∀ m ∈ msgs, validDT m.timestamp ∧ strippedStr m.sender :=
  parseChatAux_ok_valid lines none msgs h (by simp)

/-- Witness for C4: the first record of `demoLines` has a valid
timestamp and a trimmed sender. -/
theorem parse_records_valid_trimmed_witness :
    validDT (DateTime.mk 2024 12 30 21 15) ∧ strippedStr "Alice" :=
  parse_records_valid_trimmed demoLines demoParsed (by decide)
    (Message.mk (DateTime.mk 2024 12 30 21 15) "Alice" "Hey!\nnote to self")
    (by decide)

/-- Counterexample to C4 as stated: the header regular expression can
capture a whitespace-only sender (here a lone space before the colon),
which `strip()` turns into the empty string, so a parsed record with an
empty sender exists. -/
theorem parse_empty_sender_cex :
    parse_chat ["1/1/24, 9:15 - : hi"] =
      .ok [{ timestamp := { year := 2024, month := 1, day := 1, hour := 9,
                            minute := 15 },
             sender := "", text := "hi" }] ∧
    (Message.mk { year := 2024, month := 1, day := 1, hour := 9,
                  minute := 15 } "" "hi").sender = "" := by
  exact ⟨by decide, rfl⟩

/-- C8: `parse_chat` fails (with the `ValueError` of `strptime`, and hence
with no partial record list) exactly when some line matches the header
pattern but its date/time fields fail calendar validation; lines that do
not match the header pattern never cause an error. -/
theorem parse_error_iff_bad_timestamp (lines : List String) :
    parse_chat lines = .error .valueError ↔
      ∃ l ∈ lines, ∃ g, matchHeader l = some g ∧
        parseTimestamp g.date g.time g.ampm = none :=
  parseChatAux_error_iff lines none

/-- C1 (amended): the peak hour used by `generate_roast` is the hour with
the maximum per-hour count, with ties broken by the hour encountered first
in message order (not by the smallest hour value); likewise for the peak
weekday; and the third roast line is built from exactly these values. -/
theorem peak_selection_first_encounter (msgs : List Message)
    (hne : msgs ≠ []) :
    (∃ c, (peak_hour msgs, c) ∈ messages_by_hour msgs ∧
      (∀ p ∈ messages_by_hour msgs, p.2 ≤ c) ∧
      ∀ p ∈ messages_by_hour msgs, p.2 = c → p.1 = peak_hour msgs ∨
        firstIdx (peak_hour msgs) (hourStream msgs) <
          firstIdx p.1 (hourStream msgs)) ∧
    (∃ c, (peak_weekday msgs, c) ∈ messages_by_weekday msgs ∧
      (∀ p ∈ messages_by_weekday msgs, p.2 ≤ c) ∧
      ∀ p ∈ messages_by_weekday msgs, p.2 = c → p.1 = peak_weekday msgs ∨
        firstIdx (peak_weekday msgs) (weekdayStream msgs) <
          firstIdx p.1 (weekdayStream msgs)) ∧
    (∀ level, ∃ r, roastLines msgs level =
      mkTopLine level (topEntryOf msgs).1 (topPctOf msgs) ::
      mkBottomLine level (bottomEntryOf msgs).1 (bottomPctOf msgs) ::
      mkTimeLine level (formatHour (peak_hour msgs))
        (weekdayName (peak_weekday msgs)) :: r) := by
  have hh : hourStream msgs ≠ [] := by
    intro he
    rw [hourStream] at he
    exact hne (List.map_eq_nil_iff.mp he)
  have hw : weekdayStream msgs ≠ [] := by
    intro he
    rw [weekdayStream] at he
    exact hne (List.map_eq_nil_iff.mp he)
  refine ⟨pyMax_tally_getD (hourStream msgs) (0, 0) hh,
    pyMax_tally_getD (weekdayStream msgs) (0, 0) hw, ?_⟩
  intro level
  simp only [roastLines]
  rcases (top_emojis msgs 1).head? with _ | ⟨e, c⟩ <;>
    rcases (top_words msgs 1).head? with _ | ⟨w, c2⟩ <;>
    simp only [] <;> (try split_ifs) <;> exact ⟨_, rfl⟩

/-- Witness for C1 on `cexMsgsHour`. -/
theorem peak_selection_first_encounter_witness :
    ∃ c, (peak_hour cexMsgsHour, c) ∈ messages_by_hour cexMsgsHour ∧
      (∀ p ∈ messages_by_hour cexMsgsHour, p.2 ≤ c) ∧
      ∀ p ∈ messages_by_hour cexMsgsHour, p.2 = c →
        p.1 = peak_hour cexMsgsHour ∨
        firstIdx (peak_hour cexMsgsHour) (hourStream cexMsgsHour) <
          firstIdx p.1 (hourStream cexMsgsHour) :=
  (peak_selection_first_encounter cexMsgsHour (by decide)).1

/-- Counterexample to C1 as stated: with hours 15 then 3 both at count 1,
the selected peak hour is 15 (first encountered), not the smallest
maximal hour 3. -/
theorem peak_selection_smallest_hour_cex :
    peak_hour cexMsgsHour = 15 ∧
    (15, 1) ∈ messages_by_hour cexMsgsHour ∧
    (3, 1) ∈ messages_by_hour cexMsgsHour ∧
    (∀ p ∈ messages_by_hour cexMsgsHour, p.2 ≤ 1) ∧
    (3 : Nat) < 15 := by
  decide

/-- C2: `top_words` and `top_emojis` take the first `n` items of a
permutation of the counter that is sorted by strictly descending count,
with equal counts ordered by first occurrence in the counted token
stream. -/
theorem top_n_stable_sorted (msgs : List Message) (n : Int) :
    (∃ l : List (String × Nat), l.Perm (tally (wordStream msgs)) ∧
      l.Pairwise (rankBefore (wordStream msgs)) ∧
      top_words msgs n = l.take n.toNat) ∧
    (∃ l : List (String × Nat), l.Perm (tally (emojiStream msgs)) ∧
      l.Pairwise (rankBefore (emojiStream msgs)) ∧
      top_emojis msgs n = l.take n.toNat) := by
  constructor
  · refine ⟨sortDesc (tally (wordStream msgs)), sortDesc_perm _, ?_, rfl⟩
    have h := sortDesc_pairwise (tally (wordStream msgs))
      (tally_pairwise (wordStream msgs))
    exact h.imp (fun hab => hab)
  · refine ⟨sortDesc (tally (emojiStream msgs)), sortDesc_perm _, ?_, rfl⟩
    have h := sortDesc_pairwise (tally (emojiStream msgs))
      (tally_pairwise (emojiStream msgs))
    exact h.imp (fun hab => hab)

/-- C7: non-positive `n` yields an empty top list; `n` at least the number
of distinct items yields all of them; every aggregator maps the empty
message list to an empty result. -/
theorem top_n_degenerate (msgs : List Message) (n : Int) :
    (n ≤ 0 → top_words msgs n = [] ∧ top_emojis msgs n = []) ∧
    ((tally (wordStream msgs)).length ≤ n.toNat →
      (top_words msgs n).length = (tally (wordStream msgs)).length ∧
      ∀ p, p ∈ top_words msgs n ↔ p ∈ tally (wordStream msgs)) ∧
    ((tally (emojiStream msgs)).length ≤ n.toNat →
      (top_emojis msgs n).length = (tally (emojiStream msgs)).length ∧
      ∀ p, p ∈ top_emojis msgs n ↔ p ∈ tally (emojiStream msgs)) ∧
    (message_counts [] = [] ∧ messages_by_day [] = [] ∧
      messages_by_hour [] = [] ∧ messages_by_weekday [] = [] ∧
      top_words [] n = [] ∧ top_emojis [] n = []) := by
  refine ⟨?_, ?_, ?_, rfl, rfl, rfl, rfl, ?_, ?_⟩
  · intro hn
    constructor <;>
      simp [top_words, top_emojis, most_common, Int.toNat_of_nonpos hn]
  · intro hlen
    have hperm := sortDesc_perm (tally (wordStream msgs))
    have htake : top_words msgs n = sortDesc (tally (wordStream msgs)) :=
      List.take_of_length_le (by rw [hperm.length_eq]; exact hlen)
    rw [htake]
    exact ⟨hperm.length_eq, fun p => hperm.mem_iff⟩
  · intro hlen
    have hperm := sortDesc_perm (tally (emojiStream msgs))
    have htake : top_emojis msgs n = sortDesc (tally (emojiStream msgs)) :=
      List.take_of_length_le (by rw [hperm.length_eq]; exact hlen)
    rw [htake]
    exact ⟨hperm.length_eq, fun p => hperm.mem_iff⟩
  · simp [top_words, most_common, wordStream, tally, sortDesc]
  · simp [top_emojis, most_common, emojiStream, tally, sortDesc]

/-- Witness for C7 at the empty message list and `n = -1`. -/
theorem top_n_degenerate_witness :
    (top_words [] (-1) = [] ∧ top_emojis [] (-1) = []) ∧
    (top_words [] (-1 : Int)).length = (tally (wordStream [])).length := by
  have h := top_n_degenerate [] (-1)
  exact ⟨h.1 (by decide), (h.2.1 (by decide)).1⟩

/-- C3 (amended): `_percentage(part, whole)` equals 0 when `whole` is zero
(guarded) or `part` is zero (exact float arithmetic); otherwise it equals
the IEEE-double evaluation `fl(fl(part / whole) * 100)` of
`part / whole * 100` — each operation correctly rounded to 53 significant
bits — rounded to the nearest integer with ties to even (Python 3
`round`): a value within 1/2 of that double, which itself is within
relative error `2 ^ (-51)` of the exact rational `part / whole * 100`. -/
theorem percentage_float_round (part whole : Nat) :
    (whole = 0 → pyPercentage part whole = 0) ∧
    (whole ≠ 0 → part = 0 → pyPercentage part whole = 0) ∧
    (whole ≠ 0 → part ≠ 0 →
      pyPercentage part whole = roundHalfEven (valQ (fl2 part whole)) ∧
      |((pyPercentage part whole : ℤ) : ℚ) - valQ (fl2 part whole)| ≤ 1/2 ∧
      (|((pyPercentage part whole : ℤ) : ℚ) - valQ (fl2 part whole)| = 1/2 →
        pyPercentage part whole % 2 = 0) ∧
      |valQ (fl2 part whole) - (part : ℚ) / (whole : ℚ) * 100| ≤
        (part : ℚ) / (whole : ℚ) * 100 * (1/2^51)) := by
  refine ⟨?_, ?_, ?_⟩
  · intro h
    simp [pyPercentage, h]
  · intro h h0
    rw [pyPercentage, if_pos h, if_pos h0]
  · intro hw hp
    have h1fst : 0 < (fl1 part whole).1 := floatOfRatPos_fst_pos hp hw
    have h1snd : 0 < (fl1 part whole).2 := floatOfRatPos_snd_pos part whole
    have h2num : (fl1 part whole).1 * 100 ≠ 0 :=
      Nat.mul_ne_zero h1fst.ne' (by norm_num)
    have h2snd : (fl2 part whole).2 ≠ 0 := by
      rw [fl2]
      exact (floatOfRatPos_snd_pos _ _).ne'
    have heq : pyPercentage part whole =
        roundHalfEven (valQ (fl2 part whole)) := by
      rw [pyPercentage, if_pos hw, if_neg hp, rdivEven_eq _ _ h2snd]
      rfl
    refine ⟨heq, ?_, ?_, ?_⟩
    · rw [heq]
      exact (roundHalfEven_spec _).1
    · rw [heq]
      exact (roundHalfEven_spec _).2
    · have hratio : (((fl1 part whole).1 * 100 : Nat) : ℚ) /
          ((fl1 part whole).2 : ℚ) = valQ (fl1 part whole) * 100 := by
        rw [valQ]
        push_cast
        ring
      have e2 : |valQ (fl2 part whole) - valQ (fl1 part whole) * 100| ≤
          valQ (fl1 part whole) * 100 * (1/2^53) := by
        have h := float_err ((fl1 part whole).1 * 100) (fl1 part whole).2
          h2num h1snd.ne'
        rw [hratio] at h
        rw [fl2]
        exact h
      have e1 : |valQ (fl1 part whole) - (part:ℚ) / (whole:ℚ)| ≤
          (part:ℚ) / (whole:ℚ) * (1/2^53) := by
        rw [fl1]
        exact float_err part whole hp hw
      set u := (part:ℚ) / (whole:ℚ) with hu
      set d1 := valQ (fl1 part whole) with hd1
      set d2 := valQ (fl2 part whole) with hd2
      have hu0 : (0:ℚ) ≤ u := by
        rw [hu]
        positivity
      have htri : |d2 - u * 100| ≤ |d2 - d1 * 100| + |d1 * 100 - u * 100| :=
        abs_sub_le _ _ _
      have habs : |d1 * 100 - u * 100| = |d1 - u| * 100 := by
        rw [show d1 * 100 - u * 100 = (d1 - u) * 100 by ring, abs_mul]
        norm_num
      have hd1u : d1 - u ≤ |d1 - u| := le_abs_self _
      linarith [e1, e2, htri, habs, hd1u, abs_nonneg (d1 - u),
        abs_nonneg (d2 - d1 * 100)]

/-- Witness for C3 at `_percentage(1, 3) = 33`. -/
theorem percentage_float_round_witness :
    pyPercentage 1 3 = roundHalfEven (valQ (fl2 1 3)) ∧
    pyPercentage 1 3 = 33 :=
  ⟨((percentage_float_round 1 3).2.2 (by decide) (by decide)).1, by decide⟩

/-- Counterexample to C3 as stated: `_percentage(1, 8)` computes
`round(12.5) = 12` (half to even), while rounding half away from zero as
the claim demands would give 13. -/
theorem percentage_not_half_away_cex :
    pyPercentage 1 8 = 12 ∧ specPercentage 1 8 = 13 ∧ (12 : ℤ) ≠ 13 := by
  have hq : ((1 : Nat) : ℚ) / ((8 : Nat) : ℚ) * 100 = 25/2 := by
    norm_num
  refine ⟨by decide, ?_, by decide⟩
  rw [specPercentage, if_neg (by norm_num), hq, roundHalfAwayFromZero,
    if_pos (by norm_num)]
  rw [show (25/2 + 1/2 : ℚ) = ((13 : ℤ) : ℚ) by norm_num]
  rw [Int.floor_intCast]

/-- C6 (amended): for a non-empty message list, `generate_roast` composes
up to five text lines from the fixed, level-specific templates — two
sender lines, the peak-time line, then the emoji line exactly when an
emoji token exists and the word line exactly when a word survives
stop-word filtering — and returns them joined with single line breaks and
no trailing break (`joinNL`). -/
theorem roast_five_lines (msgs : List Message) (level : String)
    (hne : msgs ≠ []) :
    generate_roast msgs level = joinNL (roastLines msgs (normLevel level)) ∧
    roastLines msgs (normLevel level) =
      [mkTopLine (normLevel level) (topEntryOf msgs).1 (topPctOf msgs),
       mkBottomLine (normLevel level) (bottomEntryOf msgs).1
         (bottomPctOf msgs),
       mkTimeLine (normLevel level) (formatHour (peak_hour msgs))
         (weekdayName (peak_weekday msgs))] ++
      (match (top_emojis msgs 1).head? with
        | some p => [mkEmojiLine (normLevel level) p.1 p.2]
        | none => []) ++
      (match (top_words msgs 1).head? with
        | some p => [mkWordLine (normLevel level) p.1 p.2]
        | none => []) ∧
    ((top_emojis msgs 1).head? = none ↔ top_emojis msgs 1 = []) ∧
    ((top_words msgs 1).head? = none ↔ top_words msgs 1 = []) := by
  refine ⟨?_, ?_, List.head?_eq_none_iff, List.head?_eq_none_iff⟩
  · simp only [generate_roast]
    rw [if_neg (fun h0 => hne (List.length_eq_zero.mp h0))]
  · simp only [roastLines]
    rcases he : (top_emojis msgs 1).head? with _ | ⟨e, c⟩ <;>
      rcases hw : (top_words msgs 1).head? with _ | ⟨w, c2⟩ <;>
      simp only []
    · rfl
    · have hwne : w ≠ "" :=
        mem_top_words_ne_empty (List.mem_of_mem_head? (by rw [hw]; rfl))
      rw [if_pos hwne]
      rfl
    · have hene : e ≠ "" :=
        mem_top_emojis_ne_empty (List.mem_of_mem_head? (by rw [he]; rfl))
      rw [if_pos hene]
      rfl
    · have hwne : w ≠ "" :=
        mem_top_words_ne_empty (List.mem_of_mem_head? (by rw [hw]; rfl))
      have hene : e ≠ "" :=
        mem_top_emojis_ne_empty (List.mem_of_mem_head? (by rw [he]; rfl))
      rw [if_pos hene, if_pos hwne]
      rfl

/-- Witness for C6 on one message carrying a word and an emoji. -/
theorem roast_five_lines_witness :
    generate_roast [demoMsg] "medium" =
      joinNL (roastLines [demoMsg] (normLevel "medium")) :=
  (roast_five_lines [demoMsg] "medium" (by decide)).1

/-- Counterexample to C6's count of "four text lines": on a message with
both a word and an emoji nothing is omitted and five lines are produced. -/
theorem roast_four_lines_cex :
    (roastLines [demoMsg] (normLevel "medium")).length = 5 ∧
    (5 : Nat) ≠ 4 := by
  constructor
  · decide
  · decide

/-- `_percentage(n, n) = 100` for a non-zero total: `n / n` is the exact
double `1.0`, `1.0 * 100` the exact double `100.0`, and `round(100.0)`
is 100. -/
theorem pyPercentage_self {n : Nat} (h : n ≠ 0) : pyPercentage n n = 100 := by
  rw [pyPercentage, if_pos h, if_neg h]
  have hfl1 : fl1 n n = (2 ^ 52, 2 ^ 52) := floatOfRatPos_self h
  rw [fl2, hfl1]
  decide

/-- C10: when every message has the same sender, both the top-sender and
the bottom-sender lines name that sender with percentage 100. -/
theorem single_sender_roast (msgs : List Message) (s level : String)
    (hne : msgs ≠ []) (hall : ∀ m ∈ msgs, m.sender = s) :
    ∃ rest, generate_roast msgs level =
      mkTopLine (normLevel level) s 100 ++ "\n" ++
      (mkBottomLine (normLevel level) s 100 ++ "\n" ++ rest) := by
  have hlen : msgs.length ≠ 0 := fun h0 => hne (List.length_eq_zero.mp h0)
  have hcounts : message_counts msgs = [(s, msgs.length)] := by
    rw [message_counts, senderStream]
    rw [tally_const (fun x hx => by
        rcases List.mem_map.mp hx with ⟨m, hm, rfl⟩
        exact hall m hm)
      (fun h0 => hne (List.map_eq_nil_iff.mp h0))]
    rw [List.length_map]
  have hsorted : sortedCounts msgs = [(s, msgs.length)] := by
    rw [sortedCounts, hcounts]
    rfl
  have htop : topEntryOf msgs = (s, msgs.length) := by
    rw [topEntryOf, hsorted]
    rfl
  have hbot : bottomEntryOf msgs = (s, msgs.length) := by
    rw [bottomEntryOf, hsorted]
    rfl
  have hpct : topPctOf msgs = 100 := by
    rw [topPctOf, htop]
    exact pyPercentage_self hlen
  have hbpct : bottomPctOf msgs = 100 := by
    rw [bottomPctOf, hbot]
    exact pyPercentage_self hlen
  have hstruct : ∃ r, roastLines msgs (normLevel level) =
      mkTopLine (normLevel level) s 100 ::
      mkBottomLine (normLevel level) s 100 :: r := by
    simp only [roastLines, htop, hbot, hpct, hbpct]
    rcases (top_emojis msgs 1).head? with _ | ⟨e, c⟩ <;>
      rcases (top_words msgs 1).head? with _ | ⟨w, c2⟩ <;>
      simp only [] <;> (try split_ifs) <;> exact ⟨_, rfl⟩
  obtain ⟨r, hr⟩ := hstruct
  cases r with
  | nil =>
    exfalso
    have h3 : ∃ r3, roastLines msgs (normLevel level) =
        mkTopLine (normLevel level) (topEntryOf msgs).1 (topPctOf msgs) ::
        mkBottomLine (normLevel level) (bottomEntryOf msgs).1
          (bottomPctOf msgs) ::
        mkTimeLine (normLevel level) (formatHour (peak_hour msgs))
          (weekdayName (peak_weekday msgs)) :: r3 := by
      simp only [roastLines]
      rcases (top_emojis msgs 1).head? with _ | ⟨e, c⟩ <;>
        rcases (top_words msgs 1).head? with _ | ⟨w, c2⟩ <;>
        simp only [] <;> (try split_ifs) <;> exact ⟨_, rfl⟩
    obtain ⟨r3, hr3⟩ := h3
    rw [hr] at hr3
    have hlen3 := congrArg List.length hr3
    simp at hlen3
  | cons l3 r' =>
    refine ⟨joinNL (l3 :: r'), ?_⟩
    simp only [generate_roast]
    rw [if_neg hlen, hr, joinNL_cons_cons, joinNL_cons_cons]

/-- Witness for C10 on a one-sender chat. -/
theorem single_sender_roast_witness :
    ∃ rest, generate_roast [demoMsg] "mild" =
      mkTopLine (normLevel "mild") "Alice" 100 ++ "\n" ++
      (mkBottomLine (normLevel "mild") "Alice" 100 ++ "\n" ++ rest) :=
  single_sender_roast [demoMsg] "Alice" "mild" (by decide) (by decide)
